import Mathlib

/-!
# Verification of the consistent-hashing target allocator

Shallow embedding of `cmd/otel-allocator/allocation/consistent_hashing.go`.
Go maps are modelled as association lists (`List (String × α)`) whose list
order stands for the map's iteration order; Go map assignment / deletion
become `insertA` / `eraseA`.  The third-party bounded-load hash ring
(`github.com/buraksezer/consistent`) is specified at its interface: its
member set is a `Finset String` and its `LocateKey` is an arbitrary
function `locate : Finset String → String → String` that returns a member
whenever the ring is non-empty (hypothesis `LocateMem`); this captures the
library fact that ring lookups depend only on the member set.
-/

set_option maxHeartbeats 1000000

namespace OTelAlloc

/-- Modelled from the spec: a Collector (type defined outside `src/`) has a
stable name and a count of targets currently assigned to it; `String()`
returns the name. -/
structure Collector where
  name : String
  numTargets : Int
  deriving DecidableEq, Repr

/-- Modelled from the spec: `NewCollector` (outside `src/`) creates a
collector with the given name and a zero target count. -/
def NewCollector (n : String) : Collector :=
  { name := n, numTargets := 0 }

/-- Modelled from the spec: a Target (TargetItem, type defined outside
`src/`) carries its originating job name, an exported link, the target URL,
an opaque label set and the name of the collector currently owning it. -/
structure TargetItem where
  jobName : String
  link : String
  targetURL : String
  label : List (String × String)
  collectorName : String
  deriving DecidableEq, Repr

/-- Serialisation of a label set, used only inside `TargetItem.hash`. -/
def labelFingerprint (l : List (String × String)) : String :=
  l.foldl (fun acc p => acc ++ p.1 ++ "=" ++ p.2 ++ ";") ""

/-- Modelled from the spec: `TargetItem.Hash` (outside `src/`) is a
deterministic hash over job name, URL and labels, independent of the
owning-collector field. -/
def TargetItem.hash (t : TargetItem) : String :=
  t.jobName ++ "|" ++ t.targetURL ++ "|" ++ labelFingerprint t.label

/-! ## Association-list maps -/

/-- Go map read `l[k]` (with `ok` as `isSome`). -/
def lookupA {β : Type} (k : String) : List (String × β) → Option β
  | [] => none
  | p :: l => if p.1 = k then some p.2 else lookupA k l

/-- Go map assignment `l[k] = v`: replace in place, or append a new entry. -/
def insertA {β : Type} (k : String) (v : β) : List (String × β) → List (String × β)
  | [] => [(k, v)]
  | p :: l => if p.1 = k then (k, v) :: l else p :: insertA k v l

/-- Go map deletion `delete(l, k)`. -/
def eraseA {β : Type} (k : String) : List (String × β) → List (String × β)
  | [] => []
  | p :: l => if p.1 = k then l else p :: eraseA k l

/-- The key list of a map. -/
def keysA {β : Type} (l : List (String × β)) : List String :=
  l.map Prod.fst

theorem lookupA_insertA_self {β : Type} (k : String) (v : β) (l : List (String × β)) :
    lookupA k (insertA k v l) = some v := by
  induction l with
  | nil => simp [insertA, lookupA]
  | cons p l ih =>
    by_cases h : p.1 = k
    · simp [insertA, h, lookupA]
    · simp [insertA, h, lookupA, ih]

theorem keysA_cons {β : Type} (p : String × β) (l : List (String × β)) :
    keysA (p :: l) = p.1 :: keysA l := rfl

theorem keysA_append {β : Type} (l l' : List (String × β)) :
    keysA (l ++ l') = keysA l ++ keysA l' := by
  simp [keysA]

theorem lookupA_insertA_ne {β : Type} {k k' : String} (v : β) (l : List (String × β))
    (h : k' ≠ k) : lookupA k' (insertA k v l) = lookupA k' l := by
  induction l with
  | nil => simp [insertA, lookupA, Ne.symm h]
  | cons p l ih =>
    by_cases hp : p.1 = k
    · subst hp
      simp [insertA, lookupA, Ne.symm h]
    · simp [insertA, hp, lookupA, ih]

theorem lookupA_eraseA_ne {β : Type} {k k' : String} (l : List (String × β))
    (h : k' ≠ k) : lookupA k' (eraseA k l) = lookupA k' l := by
  induction l with
  | nil => simp [eraseA]
  | cons p l ih =>
    by_cases hp : p.1 = k
    · subst hp
      simp [eraseA, lookupA, Ne.symm h]
    · simp [eraseA, hp, lookupA, ih]

theorem lookupA_isNone_iff_not_mem_keysA {β : Type} (k : String) (l : List (String × β)) :
    lookupA k l = none ↔ k ∉ keysA l := by
  induction l with
  | nil => simp [lookupA, keysA]
  | cons p l ih =>
    by_cases hp : p.1 = k
    · simp [lookupA, hp, keysA_cons]
    · simp [lookupA, hp, keysA_cons, ih, Ne.symm hp]

theorem lookupA_isSome_iff_mem_keysA {β : Type} (k : String) (l : List (String × β)) :
    (lookupA k l).isSome ↔ k ∈ keysA l := by
  rcases h : lookupA k l with _ | v
  · simp [(lookupA_isNone_iff_not_mem_keysA k l).mp h]
  · have : ¬ lookupA k l = none := by simp [h]
    rw [lookupA_isNone_iff_not_mem_keysA] at this
    simp [h, not_not.mp this]

theorem mem_of_lookupA_some {β : Type} {k : String} {v : β} {l : List (String × β)}
    (h : lookupA k l = some v) : (k, v) ∈ l := by
  induction l with
  | nil => simp [lookupA] at h
  | cons p l ih =>
    by_cases hp : p.1 = k
    · rcases p with ⟨a, b⟩
      dsimp at hp
      subst hp
      rw [lookupA, if_pos rfl] at h
      injection h with h2
      subst h2
      exact List.mem_cons_self _ _
    · rw [lookupA, if_neg hp] at h
      exact List.mem_cons_of_mem p (ih h)

theorem lookupA_eq_of_mem_nodup {β : Type} {p : String × β} {l : List (String × β)}
    (hn : (keysA l).Nodup) (hm : p ∈ l) : lookupA p.1 l = some p.2 := by
  induction l with
  | nil => simp at hm
  | cons q l ih =>
    rw [keysA_cons, List.nodup_cons] at hn
    rcases List.mem_cons.mp hm with hm | hm
    · subst hm
      simp [lookupA]
    · have hne : q.1 ≠ p.1 := by
        intro he
        exact hn.1 (he ▸ List.mem_map_of_mem Prod.fst hm)
      simp [lookupA, hne]
      exact ih hn.2 hm

theorem keysA_insertA_mem {β : Type} {k : String} (v : β) {l : List (String × β)}
    (h : k ∈ keysA l) : keysA (insertA k v l) = keysA l := by
  induction l with
  | nil => simp [keysA] at h
  | cons p l ih =>
    by_cases hp : p.1 = k
    · simp [insertA, hp, keysA_cons]
    · rw [keysA_cons, List.mem_cons] at h
      rcases h with h | h
      · exact absurd h.symm hp
      · simp [insertA, hp, keysA_cons, ih h]

theorem insertA_of_not_mem {β : Type} {k : String} (v : β) {l : List (String × β)}
    (h : k ∉ keysA l) : insertA k v l = l ++ [(k, v)] := by
  induction l with
  | nil => simp [insertA]
  | cons p l ih =>
    rw [keysA_cons, List.mem_cons] at h
    push_neg at h
    rw [insertA, if_neg (fun he : p.1 = k => h.1 he.symm), ih h.2]
    simp

theorem keysA_insertA_not_mem {β : Type} {k : String} (v : β) {l : List (String × β)}
    (h : k ∉ keysA l) : keysA (insertA k v l) = keysA l ++ [k] := by
  rw [insertA_of_not_mem v h]
  simp [keysA]

theorem keysA_nodup_insertA {β : Type} {k : String} (v : β) {l : List (String × β)}
    (hn : (keysA l).Nodup) : (keysA (insertA k v l)).Nodup := by
  by_cases h : k ∈ keysA l
  · rw [keysA_insertA_mem v h]; exact hn
  · rw [keysA_insertA_not_mem v h]
    simpa [List.nodup_append] using ⟨hn, h⟩

theorem eraseA_sublist {β : Type} (k : String) (l : List (String × β)) :
    List.Sublist (eraseA k l) l := by
  induction l with
  | nil => simp [eraseA]
  | cons p l ih =>
    by_cases hp : p.1 = k
    · rw [eraseA, if_pos hp]
      exact List.sublist_cons_self p l
    · rw [eraseA, if_neg hp]
      exact List.Sublist.cons₂ p ih

theorem keysA_nodup_eraseA {β : Type} (k : String) {l : List (String × β)}
    (hn : (keysA l).Nodup) : (keysA (eraseA k l)).Nodup := by
  exact List.Nodup.sublist (List.Sublist.map Prod.fst (eraseA_sublist k l)) hn

theorem mem_keysA_eraseA {β : Type} {k k' : String} {l : List (String × β)}
    (hn : (keysA l).Nodup) : k' ∈ keysA (eraseA k l) ↔ k' ∈ keysA l ∧ k' ≠ k := by
  induction l with
  | nil => simp [eraseA, keysA]
  | cons p l ih =>
    rw [keysA_cons, List.nodup_cons] at hn
    by_cases hp : p.1 = k
    · subst hp
      rw [eraseA, if_pos rfl, keysA_cons]
      constructor
      · intro h
        exact ⟨List.mem_cons_of_mem _ h, fun he => hn.1 (he ▸ h)⟩
      · rintro ⟨h, hne⟩
        rcases List.mem_cons.mp h with h | h
        · exact absurd h hne
        · exact h
    · rw [eraseA, if_neg hp, keysA_cons, keysA_cons]
      constructor
      · intro h
        rcases List.mem_cons.mp h with h | h
        · exact ⟨List.mem_cons.mpr (Or.inl h), fun he => hp (by rw [← h, he])⟩
        · rcases (ih hn.2).mp h with ⟨h1, h2⟩
          exact ⟨List.mem_cons_of_mem _ h1, h2⟩
      · rintro ⟨h, hne⟩
        rcases List.mem_cons.mp h with h | h
        · exact List.mem_cons.mpr (Or.inl h)
        · exact List.mem_cons_of_mem _ ((ih hn.2).mpr ⟨h, hne⟩)

theorem lookupA_eraseA_self {β : Type} (k : String) {l : List (String × β)}
    (hn : (keysA l).Nodup) : lookupA k (eraseA k l) = none := by
  rw [lookupA_isNone_iff_not_mem_keysA]
  intro hmem
  exact absurd rfl ((mem_keysA_eraseA hn).mp hmem).2

/-! ## Metrics and allocator state

The three metric families touched by the strategy are modelled as plain
state: `TargetsPerCollector` (a gauge keyed by collector name, the strategy
label being constant), `CollectorsAllocatable`, and the number of
`TimeToAssign` latency observations. -/

structure Metrics where
  targetsPerCollector : List (String × Int)
  collectorsAllocatable : Int
  timeToAssignCount : Nat
  deriving DecidableEq, Repr

/-- `TargetsPerCollector.WithLabelValues(n, strategy).Set(v)`. -/
def setGauge (n : String) (v : Int) (m : Metrics) : Metrics :=
  { m with targetsPerCollector := insertA n v m.targetsPerCollector }

/-- `CollectorsAllocatable.WithLabelValues(strategy).Set(v)`. -/
def setAllocatable (v : Int) (m : Metrics) : Metrics :=
  { m with collectorsAllocatable := v }

/-- One `TimeToAssign` timer observation (`prometheus.NewTimer` +
`ObserveDuration`, which fires on every call). -/
def observeLatency (m : Metrics) : Metrics :=
  { m with timeToAssignCount := m.timeToAssignCount + 1 }

/-- The state of `consistentHashingAllocator`: the ring's member set
(`consistentHasher`), the `collectors` map, the `targetItems` map and the
metric sinks. -/
structure AllocState where
  ring : Finset String
  collectors : List (String × Collector)
  targetItems : List (String × TargetItem)
  metrics : Metrics
  deriving DecidableEq

/-- `newConsistentHashingAllocator`: empty ring, empty maps. -/
def initState : AllocState :=
  { ring := ∅, collectors := [], targetItems := [],
    metrics := { targetsPerCollector := [], collectorsAllocatable := 0,
                 timeToAssignCount := 0 } }

/-- The rebuilt target record of `addTargetToTargetItems`
(`url.QueryEscape` elided: job names are used verbatim, which does not
affect any claim). -/
def newTargetItem (t : TargetItem) (owner : String) : TargetItem :=
  { jobName := t.jobName
    link := "/jobs/" ++ t.jobName ++ "/targets"
    targetURL := t.targetURL
    label := t.label
    collectorName := owner }

theorem newTargetItem_hash (t : TargetItem) (owner : String) :
    (newTargetItem t owner).hash = t.hash := rfl

theorem newTargetItem_collectorName (t : TargetItem) (owner : String) :
    (newTargetItem t owner).collectorName = owner := rfl

theorem ite_comm_str {γ : Type} (a b : String) (x y : γ) :
    (if a = b then x else y) = if b = a then x else y := by
  by_cases h : a = b
  · rw [if_pos h, if_pos h.symm]
  · rw [if_neg h, if_neg (fun he => h he.symm)]

section WithLocate

variable (locate : Finset String → String → String)

/-- First statement group of `addTargetToTargetItems`: if the target's
current owner is still a live collector, decrement its count and set its
gauge from the map value. -/
def decPrev (s : AllocState) (target : TargetItem) : AllocState :=
  match lookupA target.collectorName s.collectors with
  | some prev =>
    let prev' : Collector := { prev with numTargets := prev.numTargets - 1 }
    let cols' := insertA target.collectorName prev' s.collectors
    let g : Int :=
      match lookupA prev'.name cols' with
      | some c => c.numTargets
      | none => 0
    { s with collectors := cols', metrics := setGauge prev'.name g s.metrics }
  | none => s

/-- Last statement group of `addTargetToTargetItems`: increment the new
owner's count and set its gauge.  The `none` fall-through models the Go
nil-pointer dereference on a missing owner, proved unreachable from the
public interface. -/
def incOwner (s : AllocState) (owner : String) : AllocState :=
  match lookupA owner s.collectors with
  | some oc =>
    let oc' : Collector := { oc with numTargets := oc.numTargets + 1 }
    let cols' := insertA owner oc' s.collectors
    let g : Int :=
      match lookupA owner cols' with
      | some c => c.numTargets
      | none => 0
    { s with collectors := cols', metrics := setGauge owner g s.metrics }
  | none => s

/-- `addTargetToTargetItems`: decrement the previous owner if still live,
ask the ring for the new owner, insert the rebuilt record keyed by its
hash, and increment the new owner's count. -/
def addTarget (s : AllocState) (target : TargetItem) : AllocState :=
  let s1 := decPrev s target
  let owner := locate s1.ring target.hash
  let item := newTargetItem target owner
  let s2 := { s1 with targetItems := insertA item.hash item s1.targetItems }
  incOwner s2 owner

/-- One iteration of the removal loop of `handleTargets`, over a snapshot
entry `p` of `targetItems`: if `p`'s key is in the removals, decrement the
owning collector, delete the entry, and set the owner's gauge. -/
def removeStep (remKeys : List String) (acc : AllocState) (p : String × TargetItem) :
    AllocState :=
  if p.1 ∈ remKeys then
    match lookupA p.2.collectorName acc.collectors with
    | some col =>
      let col' : Collector := { col with numTargets := col.numTargets - 1 }
      { acc with collectors := insertA p.2.collectorName col' acc.collectors
                 targetItems := eraseA p.1 acc.targetItems
                 metrics := setGauge p.2.collectorName col'.numTargets acc.metrics }
    | none => acc
  else acc

/-- One iteration of the additions loop of `handleTargets`: skip if the key
is already present, otherwise `addTargetToTargetItems`. -/
def addStep (acc : AllocState) (p : String × TargetItem) : AllocState :=
  if (lookupA p.1 acc.targetItems).isSome then acc else addTarget locate acc p.2

/-- Modelled from the spec: the diff engine (`cmd/otel-allocator/diff`, not
under `src/`) — additions are the entries of the new map whose key is
absent from the old map. -/
def diffAdditions {β : Type} (old new : List (String × β)) : List (String × β) :=
  new.filter (fun p => (lookupA p.1 old).isNone)

/-- Modelled from the spec: the diff engine — removals are the entries of
the old map whose key is absent from the new map. -/
def diffRemovals {β : Type} (old new : List (String × β)) : List (String × β) :=
  old.filter (fun p => (lookupA p.1 new).isNone)

/-- `handleTargets`: process removals over a snapshot of `targetItems`,
then process the additions. -/
def handleTargets (rems adds : List (String × TargetItem)) (s : AllocState) : AllocState :=
  let s1 := s.targetItems.foldl (removeStep (keysA rems)) s
  adds.foldl (addStep locate) s1

/-- One removed collector in `handleCollectors`: delete it from the map,
remove it from the ring, zero its gauge. -/
def colRemoveStep (acc : AllocState) (c : Collector) : AllocState :=
  { acc with collectors := eraseA c.name acc.collectors
             ring := acc.ring.erase c.name
             metrics := setGauge c.name 0 acc.metrics }

/-- One added collector in `handleCollectors`: a fresh `NewCollector` into
the map, and its name onto the ring. -/
def colAddStep (acc : AllocState) (c : Collector) : AllocState :=
  { acc with collectors := insertA c.name (NewCollector c.name) acc.collectors
             ring := insert c.name acc.ring }

/-- `handleCollectors`: clear removed collectors, insert the new ones, then
re-allocate every live target. -/
def handleCollectors (rems adds : List Collector) (s : AllocState) : AllocState :=
  let s1 := rems.foldl colRemoveStep s
  let s2 := adds.foldl colAddStep s1
  s2.targetItems.foldl (fun acc p => addTarget locate acc p.2) s2

/-- `SetTargets`: observe the latency timer; if no collectors are present,
log and return; otherwise diff and reconcile when the diff is non-empty. -/
def setTargets (targets : List (String × TargetItem)) (s : AllocState) : AllocState :=
  let s0 := { s with metrics := observeLatency s.metrics }
  if s0.collectors.isEmpty then s0
  else
    let adds := diffAdditions s0.targetItems targets
    let rems := diffRemovals s0.targetItems targets
    if adds.isEmpty && rems.isEmpty then s0
    else handleTargets locate rems adds s0

/-- `SetCollectors`: observe the latency timer, publish the allocatable
gauge; if the input is empty, log and return; otherwise diff and reconcile
when the diff is non-empty. -/
def setCollectors (collectors : List (String × Collector)) (s : AllocState) : AllocState :=
  let s0 := { s with metrics := observeLatency (setAllocatable collectors.length s.metrics) }
  if collectors.isEmpty then s0
  else
    let adds := diffAdditions s0.collectors collectors
    let rems := diffRemovals s0.collectors collectors
    if adds.isEmpty && rems.isEmpty then s0
    else handleCollectors locate (rems.map Prod.snd) (adds.map Prod.snd) s0

/-- `TargetItems()`: build a copy of the map entry by entry. -/
def TargetItemsSnap (s : AllocState) : List (String × TargetItem) :=
  s.targetItems.foldl (fun acc p => insertA p.1 p.2 acc) []

/-- `Collectors()`: build a copy of the map entry by entry. -/
def CollectorsSnap (s : AllocState) : List (String × Collector) :=
  s.collectors.foldl (fun acc p => insertA p.1 p.2 acc) []

end WithLocate

/-- A concrete `LocateKey` used to instantiate witnesses: the least member
of the ring.  Any function returning a member of a non-empty ring
satisfies the interface. -/
def locateDefault (s : Finset String) (_k : String) : String :=
  s.min.getD ""

/-- The interface property of the ring's `LocateKey`: on a non-empty ring
it returns a member. -/
def LocateMem (locate : Finset String → String → String) : Prop :=
  ∀ (s : Finset String) (k : String), s.Nonempty → locate s k ∈ s

theorem locateDefault_mem : LocateMem locateDefault := by
  intro s k hs
  rcases Finset.min_of_nonempty hs with ⟨a, ha⟩
  rw [locateDefault, ha]
  simpa using Finset.mem_of_min ha

/-! ## Counting owned targets -/

/-- The number of live targets whose owning collector is `n`. -/
def countOwner (n : String) (l : List (String × TargetItem)) : Nat :=
  (l.filter (fun p => p.2.collectorName = n)).length

theorem countOwner_nil (n : String) : countOwner n [] = 0 := rfl

theorem countOwner_cons (n : String) (p : String × TargetItem) (l : List (String × TargetItem)) :
    countOwner n (p :: l) = (if p.2.collectorName = n then 1 else 0) + countOwner n l := by
  by_cases h : p.2.collectorName = n
  · simp [countOwner, List.filter_cons, h, Nat.add_comm]
  · simp [countOwner, List.filter_cons, h]

theorem countOwner_append (n : String) (l l' : List (String × TargetItem)) :
    countOwner n (l ++ l') = countOwner n l + countOwner n l' := by
  simp [countOwner, List.filter_append]

theorem countOwner_insertA_not_mem {k : String} (v : TargetItem)
    {l : List (String × TargetItem)} (h : k ∉ keysA l) (n : String) :
    countOwner n (insertA k v l)
      = countOwner n l + (if v.collectorName = n then 1 else 0) := by
  rw [insertA_of_not_mem v h, countOwner_append, countOwner_cons, countOwner_nil]
  simp

theorem countOwner_insertA_replace {k : String} {w : TargetItem} (v : TargetItem)
    {l : List (String × TargetItem)} (hn : (keysA l).Nodup)
    (h : lookupA k l = some w) (n : String) :
    (countOwner n (insertA k v l) : Int)
      = (countOwner n l : Int) + (if v.collectorName = n then 1 else 0)
        - (if w.collectorName = n then 1 else 0) := by
  induction l with
  | nil => simp [lookupA] at h
  | cons p l ih =>
    rw [keysA_cons, List.nodup_cons] at hn
    by_cases hp : p.1 = k
    · rw [lookupA, if_pos hp] at h
      injection h with h2
      rw [insertA, if_pos hp, countOwner_cons, countOwner_cons]
      subst h2
      push_cast
      ring
    · rw [lookupA, if_neg hp] at h
      rw [insertA, if_neg hp, countOwner_cons, countOwner_cons]
      have hrec := ih hn.2 h
      push_cast at hrec ⊢
      rw [hrec]
      ring

theorem countOwner_eraseA {k : String} {w : TargetItem}
    {l : List (String × TargetItem)} (hn : (keysA l).Nodup)
    (h : lookupA k l = some w) (n : String) :
    (countOwner n (eraseA k l) : Int)
      = (countOwner n l : Int) - (if w.collectorName = n then 1 else 0) := by
  induction l with
  | nil => simp [lookupA] at h
  | cons p l ih =>
    rw [keysA_cons, List.nodup_cons] at hn
    by_cases hp : p.1 = k
    · rw [lookupA, if_pos hp] at h
      injection h with h2
      rw [eraseA, if_pos hp, countOwner_cons]
      subst h2
      push_cast
      ring
    · rw [lookupA, if_neg hp] at h
      rw [eraseA, if_neg hp, countOwner_cons, countOwner_cons]
      have hrec := ih hn.2 h
      push_cast at hrec ⊢
      rw [hrec]
      ring

/-! ## Characterisation of the elementary steps -/

theorem decPrev_ring (s : AllocState) (t : TargetItem) : (decPrev s t).ring = s.ring := by
  unfold decPrev
  cases h : lookupA t.collectorName s.collectors <;> simp [h]

theorem decPrev_targetItems (s : AllocState) (t : TargetItem) :
    (decPrev s t).targetItems = s.targetItems := by
  unfold decPrev
  cases h : lookupA t.collectorName s.collectors <;> simp [h]

theorem decPrev_keysA (s : AllocState) (t : TargetItem) :
    keysA (decPrev s t).collectors = keysA s.collectors := by
  unfold decPrev
  cases h : lookupA t.collectorName s.collectors with
  | none => simp [h]
  | some prev =>
    simp only [h]
    exact keysA_insertA_mem _
      ((lookupA_isSome_iff_mem_keysA _ _).mp (by simp [h]))

theorem decPrev_lookup (s : AllocState) (t : TargetItem) (n : String) :
    lookupA n (decPrev s t).collectors
      = (lookupA n s.collectors).map (fun c =>
          if n = t.collectorName
          then { c with numTargets := c.numTargets - 1 } else c) := by
  unfold decPrev
  cases h : lookupA t.collectorName s.collectors with
  | none =>
    by_cases hn : n = t.collectorName
    · subst hn
      simp [h]
    · cases h2 : lookupA n s.collectors <;> simp [h2, hn]
  | some prev =>
    simp only [h]
    by_cases hn : n = t.collectorName
    · subst hn
      simp [lookupA_insertA_self, h]
    · rw [lookupA_insertA_ne _ _ hn]
      cases h2 : lookupA n s.collectors <;> simp [h2, hn]

theorem incOwner_ring (s : AllocState) (o : String) : (incOwner s o).ring = s.ring := by
  unfold incOwner
  cases h : lookupA o s.collectors <;> simp [h]

theorem incOwner_targetItems (s : AllocState) (o : String) :
    (incOwner s o).targetItems = s.targetItems := by
  unfold incOwner
  cases h : lookupA o s.collectors <;> simp [h]

theorem incOwner_keysA (s : AllocState) (o : String) :
    keysA (incOwner s o).collectors = keysA s.collectors := by
  unfold incOwner
  cases h : lookupA o s.collectors with
  | none => simp [h]
  | some oc =>
    simp only [h]
    exact keysA_insertA_mem _
      ((lookupA_isSome_iff_mem_keysA _ _).mp (by simp [h]))

theorem incOwner_lookup (s : AllocState) (o : String) (n : String) :
    lookupA n (incOwner s o).collectors
      = (lookupA n s.collectors).map (fun c =>
          if n = o then { c with numTargets := c.numTargets + 1 } else c) := by
  unfold incOwner
  cases h : lookupA o s.collectors with
  | none =>
    by_cases hn : n = o
    · subst hn
      simp [h]
    · cases h2 : lookupA n s.collectors <;> simp [h2, hn]
  | some oc =>
    simp only [h]
    by_cases hn : n = o
    · subst hn
      simp [lookupA_insertA_self, h]
    · rw [lookupA_insertA_ne _ _ hn]
      cases h2 : lookupA n s.collectors <;> simp [h2, hn]

section StepLemmas

variable (locate : Finset String → String → String)

theorem addTarget_ring (s : AllocState) (t : TargetItem) :
    (addTarget locate s t).ring = s.ring := by
  unfold addTarget
  rw [incOwner_ring]
  exact decPrev_ring s t

theorem addTarget_targetItems (s : AllocState) (t : TargetItem) :
    (addTarget locate s t).targetItems
      = insertA t.hash (newTargetItem t (locate s.ring t.hash)) s.targetItems := by
  unfold addTarget
  rw [incOwner_targetItems]
  simp [decPrev_ring, decPrev_targetItems, newTargetItem_hash]

theorem addTarget_keysA (s : AllocState) (t : TargetItem) :
    keysA (addTarget locate s t).collectors = keysA s.collectors := by
  unfold addTarget
  rw [incOwner_keysA]
  simp [decPrev_keysA]

theorem addTarget_collectors_lookup (s : AllocState) (t : TargetItem) (n : String) :
    lookupA n (addTarget locate s t).collectors
      = (lookupA n s.collectors).map (fun c =>
          { c with numTargets := c.numTargets
              - (if n = t.collectorName then 1 else 0)
              + (if n = locate s.ring t.hash then 1 else 0) }) := by
  unfold addTarget
  rw [incOwner_lookup]
  rw [decPrev_lookup, Option.map_map]
  simp only [decPrev_ring]
  cases h : lookupA n s.collectors with
  | none => rfl
  | some c =>
    rcases c with ⟨cn, ct⟩
    by_cases h1 : n = t.collectorName <;> by_cases h2 : n = locate s.ring t.hash
    · have h3 : t.collectorName = locate s.ring t.hash := by rw [← h1]; exact h2
      simp [h1, h2, h3, Function.comp]
    · have h3 : ¬ t.collectorName = locate s.ring t.hash := by rw [← h1]; exact h2
      simp [h1, h3, Function.comp]
    · have h3 : ¬ locate s.ring t.hash = t.collectorName := by
        intro he
        exact h1 (by rw [h2, he])
      simp [h2, h3, Function.comp]
    · simp [h1, h2, Function.comp]

end StepLemmas

/-! ## Well-formed inputs and reachable states

`SetTargets` inputs are keyed by the target's hash (§6 of the spec: the
caller computes the hashes) and carry discovery-fresh targets whose
ownership field has not yet been written by the allocator (empty name).
`SetCollectors` inputs are keyed by the collector's (non-empty) name. -/

def WFTargets (m : List (String × TargetItem)) : Prop :=
  (keysA m).Nodup ∧ ∀ p ∈ m, p.1 = p.2.hash ∧ p.2.collectorName = ""

def WFCollectors (m : List (String × Collector)) : Prop :=
  (keysA m).Nodup ∧ ∀ p ∈ m, p.1 = p.2.name ∧ p.2.name ≠ ""

section Reach

variable (locate : Finset String → String → String)

/-- States reachable from the fresh allocator through the public interface
with well-formed inputs. -/
inductive Reachable : AllocState → Prop where
  | init : Reachable initState
  | targetsStep {s m} : Reachable s → WFTargets m → Reachable (setTargets locate m s)
  | collectorsStep {s m} : Reachable s → WFCollectors m →
      Reachable (setCollectors locate m s)

/-- Structural invariants that survive every intermediate step of the
reconciliation loops. -/
structure CoreInv (s : AllocState) : Prop where
  tnodup : (keysA s.targetItems).Nodup
  cnodup : (keysA s.collectors).Nodup
  keyHash : ∀ k t, lookupA k s.targetItems = some t → t.hash = k
  keyName : ∀ n c, lookupA n s.collectors = some c → c.name = n
  ringEq : s.ring = (keysA s.collectors).toFinset
  noEmptyName : "" ∉ keysA s.collectors
  counts : ∀ n c, lookupA n s.collectors = some c →
    c.numTargets = (countOwner n s.targetItems : Int)

/-- Invariants of the post-call states of the allocator. -/
structure FullInv (s : AllocState) : Prop where
  core : CoreInv s
  ownerLoc : ∀ k t, lookupA k s.targetItems = some t →
    t.collectorName = locate s.ring t.hash
  noOrphan : ∀ k t, lookupA k s.targetItems = some t →
    t.collectorName ∈ keysA s.collectors
  colsNonempty : s.targetItems ≠ [] → s.collectors ≠ []

end Reach

theorem countOwner_eq_zero {n : String} {l : List (String × TargetItem)}
    (h : ∀ p ∈ l, p.2.collectorName ≠ n) : countOwner n l = 0 := by
  induction l with
  | nil => rfl
  | cons p l ih =>
    rw [countOwner_cons, if_neg (h p (List.mem_cons_self _ _)), ih]
    intro q hq
    exact h q (List.mem_cons_of_mem _ hq)

theorem collectors_ne_nil_iff_keysA {s : AllocState} :
    s.collectors ≠ [] ↔ keysA s.collectors ≠ [] := by
  cases s.collectors <;> simp [keysA]

theorem ring_nonempty_of_collectors
    {s : AllocState} (hc : CoreInv s) (hne : s.collectors ≠ []) : s.ring.Nonempty := by
  rw [hc.ringEq]
  obtain ⟨p, hp⟩ := List.exists_mem_of_ne_nil _ hne
  refine ⟨p.1, ?_⟩
  rw [List.mem_toFinset]
  exact List.mem_map_of_mem Prod.fst hp

theorem locate_mem_keysA {locate : Finset String → String → String}
    (hloc : LocateMem locate) {s : AllocState} (hc : CoreInv s)
    (hne : s.collectors ≠ []) (k : String) :
    locate s.ring k ∈ keysA s.collectors := by
  have hmem := hloc s.ring k (ring_nonempty_of_collectors hc hne)
  rw [hc.ringEq] at hmem ⊢
  simpa using hmem

/-! ## The removal loop of handleTargets -/

theorem removeStep_spec (remKeys : List String) {acc : AllocState} {p : String × TargetItem}
    (hc : CoreInv acc)
    (hpres : lookupA p.1 acc.targetItems = some p.2)
    (horph : p.2.collectorName ∈ keysA acc.collectors) :
    CoreInv (removeStep remKeys acc p) ∧
    (removeStep remKeys acc p).ring = acc.ring ∧
    keysA (removeStep remKeys acc p).collectors = keysA acc.collectors ∧
    (∀ k, lookupA k (removeStep remKeys acc p).targetItems
        = if p.1 ∈ remKeys ∧ k = p.1 then none else lookupA k acc.targetItems) := by
  by_cases hrem : p.1 ∈ remKeys
  · have hsome : (lookupA p.2.collectorName acc.collectors).isSome :=
      (lookupA_isSome_iff_mem_keysA _ _).mpr horph
    obtain ⟨col, hcol⟩ := Option.isSome_iff_exists.mp hsome
    have hstep : removeStep remKeys acc p =
        { acc with
          collectors := insertA p.2.collectorName
            { col with numTargets := col.numTargets - 1 } acc.collectors
          targetItems := eraseA p.1 acc.targetItems
          metrics := setGauge p.2.collectorName (col.numTargets - 1) acc.metrics } := by
      rw [removeStep, if_pos hrem, hcol]
    rw [hstep]
    have hkeys : keysA (insertA p.2.collectorName
        { col with numTargets := col.numTargets - 1 } acc.collectors)
        = keysA acc.collectors := keysA_insertA_mem _ horph
    refine ⟨⟨?_, ?_, ?_, ?_, ?_, ?_, ?_⟩, rfl, hkeys, ?_⟩
    · exact keysA_nodup_eraseA _ hc.tnodup
    · rw [hkeys]; exact hc.cnodup
    · intro k t hlook
      by_cases hk : k = p.1
      · subst hk
        rw [lookupA_eraseA_self _ hc.tnodup] at hlook
        cases hlook
      · rw [lookupA_eraseA_ne _ hk] at hlook
        exact hc.keyHash k t hlook
    · intro n c hlook
      by_cases hn : n = p.2.collectorName
      · subst hn
        rw [lookupA_insertA_self] at hlook
        injection hlook with h2
        rw [← h2]
        simpa using hc.keyName _ _ hcol
      · rw [lookupA_insertA_ne _ _ hn] at hlook
        exact hc.keyName n c hlook
    · show acc.ring = _
      rw [hkeys]
      exact hc.ringEq
    · rw [hkeys]; exact hc.noEmptyName
    · intro n c hlook
      have hcount := countOwner_eraseA hc.tnodup hpres n
      by_cases hn : n = p.2.collectorName
      · subst hn
        rw [lookupA_insertA_self] at hlook
        injection hlook with h2
        rw [← h2]
        dsimp
        rw [hc.counts _ _ hcol, hcount, if_pos rfl]
      · rw [lookupA_insertA_ne _ _ hn] at hlook
        rw [hc.counts _ _ hlook, hcount, if_neg (fun he => hn he.symm)]
        ring
    · intro k
      by_cases hk : k = p.1
      · subst hk
        rw [if_pos ⟨hrem, rfl⟩]
        exact lookupA_eraseA_self _ hc.tnodup
      · rw [if_neg (fun hcond => hk hcond.2)]
        exact lookupA_eraseA_ne _ hk
  · have hstep : removeStep remKeys acc p = acc := by
      rw [removeStep, if_neg hrem]
    rw [hstep]
    refine ⟨hc, rfl, rfl, ?_⟩
    intro k
    rw [if_neg (fun hcond => hrem hcond.1)]

theorem removeFold_spec (remKeys : List String) :
    ∀ (l : List (String × TargetItem)) (acc : AllocState),
      (keysA l).Nodup →
      (∀ p ∈ l, lookupA p.1 acc.targetItems = some p.2) →
      (∀ k t, lookupA k acc.targetItems = some t →
        t.collectorName ∈ keysA acc.collectors) →
      CoreInv acc →
      CoreInv (l.foldl (removeStep remKeys) acc) ∧
      (l.foldl (removeStep remKeys) acc).ring = acc.ring ∧
      keysA (l.foldl (removeStep remKeys) acc).collectors = keysA acc.collectors ∧
      (∀ k, lookupA k (l.foldl (removeStep remKeys) acc).targetItems
          = if k ∈ keysA l ∧ k ∈ remKeys then none else lookupA k acc.targetItems) := by
  intro l
  induction l with
  | nil =>
    intro acc _ _ _ hc
    refine ⟨hc, rfl, rfl, ?_⟩
    intro k
    simp [keysA]
  | cons p l ih =>
    intro acc hn hpres horph hc
    rw [keysA_cons, List.nodup_cons] at hn
    have hp := hpres p (List.mem_cons_self _ _)
    obtain ⟨hc1, hr1, hk1, hch1⟩ := removeStep_spec remKeys hc hp (horph _ _ hp)
    have hpres' : ∀ q ∈ l, lookupA q.1 (removeStep remKeys acc p).targetItems = some q.2 := by
      intro q hq
      rw [hch1 q.1]
      have hne : q.1 ≠ p.1 := by
        intro he
        exact hn.1 (he ▸ List.mem_map_of_mem Prod.fst hq)
      rw [if_neg (fun hcond => hne hcond.2)]
      exact hpres q (List.mem_cons_of_mem _ hq)
    have horph' : ∀ k t, lookupA k (removeStep remKeys acc p).targetItems = some t →
        t.collectorName ∈ keysA (removeStep remKeys acc p).collectors := by
      intro k t hlook
      rw [hch1 k] at hlook
      rw [hk1]
      by_cases hcond : p.1 ∈ remKeys ∧ k = p.1
      · rw [if_pos hcond] at hlook
        cases hlook
      · rw [if_neg hcond] at hlook
        exact horph k t hlook
    obtain ⟨hc2, hr2, hk2, hch2⟩ := ih (removeStep remKeys acc p) hn.2 hpres' horph' hc1
    simp only [List.foldl_cons]
    refine ⟨hc2, by rw [hr2, hr1], by rw [hk2, hk1], ?_⟩
    intro k
    rw [hch2 k, hch1 k]
    by_cases hrk : k ∈ remKeys
    · by_cases hkp : k = p.1
      · subst hkp
        simp [hrk, keysA_cons]
      · by_cases hkl : k ∈ keysA l
        · simp [hrk, hkl, keysA_cons]
        · simp [hrk, hkl, hkp, keysA_cons]
    · simp [hrk, keysA_cons]
      intro h1 h2
      subst h2
      exact absurd h1 hrk

/-! ## The two uses of addTargetToTargetItems -/

theorem addTarget_fresh_spec (locate : Finset String → String → String)
    {acc : AllocState} {t : TargetItem}
    (hc : CoreInv acc)
    (hfresh : t.hash ∉ keysA acc.targetItems)
    (hown : t.collectorName = "") :
    CoreInv (addTarget locate acc t) ∧
    (addTarget locate acc t).ring = acc.ring ∧
    keysA (addTarget locate acc t).collectors = keysA acc.collectors ∧
    keysA (addTarget locate acc t).targetItems = keysA acc.targetItems ++ [t.hash] ∧
    lookupA t.hash (addTarget locate acc t).targetItems
      = some (newTargetItem t (locate acc.ring t.hash)) ∧
    (∀ k, k ≠ t.hash →
      lookupA k (addTarget locate acc t).targetItems = lookupA k acc.targetItems) := by
  have hti := addTarget_targetItems locate acc t
  have hkc := addTarget_keysA locate acc t
  have hrg := addTarget_ring locate acc t
  have hcl := addTarget_collectors_lookup locate acc t
  refine ⟨⟨?_, ?_, ?_, ?_, ?_, ?_, ?_⟩, hrg, hkc, ?_, ?_, ?_⟩
  · rw [hti]
    exact keysA_nodup_insertA _ hc.tnodup
  · rw [hkc]
    exact hc.cnodup
  · intro k u hlook
    rw [hti] at hlook
    by_cases hk : k = t.hash
    · subst hk
      rw [lookupA_insertA_self] at hlook
      injection hlook with h2
      rw [← h2, newTargetItem_hash]
    · rw [lookupA_insertA_ne _ _ hk] at hlook
      exact hc.keyHash k u hlook
  · intro n c hlook
    rw [hcl n] at hlook
    cases h2 : lookupA n acc.collectors with
    | none => rw [h2] at hlook; cases hlook
    | some c0 =>
      rw [h2] at hlook
      injection hlook with h3
      rw [← h3]
      exact hc.keyName n c0 h2
  · rw [hrg, hkc]
    exact hc.ringEq
  · rw [hkc]
    exact hc.noEmptyName
  · intro n c hlook
    have hnmem : n ∈ keysA (addTarget locate acc t).collectors :=
      (lookupA_isSome_iff_mem_keysA _ _).mp (by simp [hlook])
    rw [hkc] at hnmem
    have hnE : n ≠ "" := fun he => hc.noEmptyName (he ▸ hnmem)
    rw [hcl n] at hlook
    cases h2 : lookupA n acc.collectors with
    | none => rw [h2] at hlook; cases hlook
    | some c0 =>
      rw [h2] at hlook
      injection hlook with h3
      rw [← h3]
      dsimp
      rw [hti, countOwner_insertA_not_mem _ hfresh, hc.counts n c0 h2, hown]
      simp only [newTargetItem_collectorName]
      rw [if_neg hnE]
      push_cast
      rw [ite_comm_str (locate acc.ring t.hash) n]
      ring
  · rw [hti]
    rw [insertA_of_not_mem _ hfresh, keysA_append]
    rfl
  · rw [hti]
    exact lookupA_insertA_self _ _ _
  · intro k hk
    rw [hti]
    exact lookupA_insertA_ne _ _ hk

theorem addTarget_reassign_spec (locate : Finset String → String → String)
    {acc : AllocState} {t : TargetItem}
    (hc : CoreInv acc)
    (hpres : lookupA t.hash acc.targetItems = some t) :
    CoreInv (addTarget locate acc t) ∧
    (addTarget locate acc t).ring = acc.ring ∧
    keysA (addTarget locate acc t).collectors = keysA acc.collectors ∧
    keysA (addTarget locate acc t).targetItems = keysA acc.targetItems ∧
    lookupA t.hash (addTarget locate acc t).targetItems
      = some (newTargetItem t (locate acc.ring t.hash)) ∧
    (∀ k, k ≠ t.hash →
      lookupA k (addTarget locate acc t).targetItems = lookupA k acc.targetItems) := by
  have hti := addTarget_targetItems locate acc t
  have hkc := addTarget_keysA locate acc t
  have hrg := addTarget_ring locate acc t
  have hcl := addTarget_collectors_lookup locate acc t
  have hmem : t.hash ∈ keysA acc.targetItems :=
    (lookupA_isSome_iff_mem_keysA _ _).mp (by simp [hpres])
  refine ⟨⟨?_, ?_, ?_, ?_, ?_, ?_, ?_⟩, hrg, hkc, ?_, ?_, ?_⟩
  · rw [hti]
    exact keysA_nodup_insertA _ hc.tnodup
  · rw [hkc]
    exact hc.cnodup
  · intro k u hlook
    rw [hti] at hlook
    by_cases hk : k = t.hash
    · subst hk
      rw [lookupA_insertA_self] at hlook
      injection hlook with h2
      rw [← h2, newTargetItem_hash]
    · rw [lookupA_insertA_ne _ _ hk] at hlook
      exact hc.keyHash k u hlook
  · intro n c hlook
    rw [hcl n] at hlook
    cases h2 : lookupA n acc.collectors with
    | none => rw [h2] at hlook; cases hlook
    | some c0 =>
      rw [h2] at hlook
      injection hlook with h3
      rw [← h3]
      exact hc.keyName n c0 h2
  · rw [hrg, hkc]
    exact hc.ringEq
  · rw [hkc]
    exact hc.noEmptyName
  · intro n c hlook
    rw [hcl n] at hlook
    cases h2 : lookupA n acc.collectors with
    | none => rw [h2] at hlook; cases hlook
    | some c0 =>
      rw [h2] at hlook
      injection hlook with h3
      rw [← h3]
      dsimp
      rw [hti, countOwner_insertA_replace _ hc.tnodup hpres, hc.counts n c0 h2]
      simp only [newTargetItem_collectorName]
      rw [ite_comm_str (locate acc.ring t.hash) n, ite_comm_str t.collectorName n]
      ring
  · rw [hti]
    exact keysA_insertA_mem _ hmem
  · rw [hti]
    exact lookupA_insertA_self _ _ _
  · intro k hk
    rw [hti]
    exact lookupA_insertA_ne _ _ hk

/-! ## The addition loop of handleTargets -/

theorem addStep_of_fresh {locate : Finset String → String → String}
    {acc : AllocState} {q : String × TargetItem} (h : q.1 ∉ keysA acc.targetItems) :
    addStep locate acc q = addTarget locate acc q.2 := by
  have hnone : lookupA q.1 acc.targetItems = none :=
    (lookupA_isNone_iff_not_mem_keysA _ _).mpr h
  rw [addStep, hnone]
  rfl

theorem addFold_spec {locate : Finset String → String → String} :
    ∀ (l : List (String × TargetItem)) (acc : AllocState),
      (keysA l).Nodup →
      (∀ q ∈ l, q.1 = q.2.hash ∧ q.2.collectorName = "") →
      (∀ q ∈ l, q.1 ∉ keysA acc.targetItems) →
      CoreInv acc →
      CoreInv (l.foldl (addStep locate) acc) ∧
      (l.foldl (addStep locate) acc).ring = acc.ring ∧
      keysA (l.foldl (addStep locate) acc).collectors = keysA acc.collectors ∧
      keysA (l.foldl (addStep locate) acc).targetItems
        = keysA acc.targetItems ++ keysA l ∧
      (∀ q ∈ l, lookupA q.1 (l.foldl (addStep locate) acc).targetItems
          = some (newTargetItem q.2 (locate acc.ring q.2.hash))) ∧
      (∀ k, k ∉ keysA l →
        lookupA k (l.foldl (addStep locate) acc).targetItems
          = lookupA k acc.targetItems) := by
  intro l
  induction l with
  | nil =>
    intro acc _ _ _ hc
    refine ⟨hc, rfl, rfl, by simp [keysA], ?_, ?_⟩
    · intro q hq
      simp at hq
    · intro k _
      rfl
  | cons q l ih =>
    intro acc hn hwf hfresh hc
    rw [keysA_cons, List.nodup_cons] at hn
    have hq1 := (hwf q (List.mem_cons_self _ _)).1
    have hq2 := (hwf q (List.mem_cons_self _ _)).2
    have hqf := hfresh q (List.mem_cons_self _ _)
    have hstep : addStep locate acc q = addTarget locate acc q.2 := addStep_of_fresh hqf
    have hfr : q.2.hash ∉ keysA acc.targetItems := hq1 ▸ hqf
    obtain ⟨hc1, hr1, hk1, ht1, hl1, hu1⟩ :=
      addTarget_fresh_spec locate hc hfr hq2
    have hfresh' : ∀ r ∈ l, r.1 ∉ keysA (addTarget locate acc q.2).targetItems := by
      intro r hr
      rw [ht1, List.mem_append]
      push_neg
      constructor
      · exact hfresh r (List.mem_cons_of_mem _ hr)
      · have : r.1 ≠ q.1 := by
          intro he
          exact hn.1 (he ▸ List.mem_map_of_mem Prod.fst hr)
        simpa [hq1] using this
    obtain ⟨hc2, hr2, hk2, ht2, hl2, hu2⟩ :=
      ih (addTarget locate acc q.2) hn.2
        (fun r hr => hwf r (List.mem_cons_of_mem _ hr)) hfresh' hc1
    simp only [List.foldl_cons, hstep]
    refine ⟨hc2, by rw [hr2, hr1], by rw [hk2, hk1], ?_, ?_, ?_⟩
    · rw [ht2, ht1, keysA_cons, hq1]
      simp
    · intro r hr
      rcases List.mem_cons.mp hr with hr | hr

      · subst hr
        rw [hu2 r.1 hn.1, hq1]
        exact hl1
      · rw [hl2 r hr, hr1]
    · intro k hk
      rw [keysA_cons, List.mem_cons] at hk
      push_neg at hk
      rw [hu2 k hk.2]
      exact hu1 k (by rw [hq1] at hk; exact hk.1)

/-! ## The re-allocation loop of handleCollectors -/

theorem reassignFold_spec {locate : Finset String → String → String} :
    ∀ (l : List (String × TargetItem)) (acc : AllocState),
      (keysA l).Nodup →
      (∀ q ∈ l, lookupA q.1 acc.targetItems = some q.2) →
      (∀ q ∈ l, q.2.hash = q.1) →
      CoreInv acc →
      CoreInv (l.foldl (fun a p => addTarget locate a p.2) acc) ∧
      (l.foldl (fun a p => addTarget locate a p.2) acc).ring = acc.ring ∧
      keysA (l.foldl (fun a p => addTarget locate a p.2) acc).collectors
        = keysA acc.collectors ∧
      keysA (l.foldl (fun a p => addTarget locate a p.2) acc).targetItems
        = keysA acc.targetItems ∧
      (∀ q ∈ l, lookupA q.1 (l.foldl (fun a p => addTarget locate a p.2) acc).targetItems
          = some (newTargetItem q.2 (locate acc.ring q.2.hash))) ∧
      (∀ k, k ∉ keysA l →
        lookupA k (l.foldl (fun a p => addTarget locate a p.2) acc).targetItems
          = lookupA k acc.targetItems) := by
  intro l
  induction l with
  | nil =>
    intro acc _ _ _ hc
    refine ⟨hc, rfl, rfl, rfl, ?_, ?_⟩
    · intro q hq
      simp at hq
    · intro k _
      rfl
  | cons q l ih =>
    intro acc hn hpres hkey hc
    rw [keysA_cons, List.nodup_cons] at hn
    have hq := hpres q (List.mem_cons_self _ _)
    have hqk := hkey q (List.mem_cons_self _ _)
    have hpres0 : lookupA q.2.hash acc.targetItems = some q.2 := by rw [hqk]; exact hq
    obtain ⟨hc1, hr1, hk1, ht1, hl1, hu1⟩ :=
      addTarget_reassign_spec locate hc hpres0
    have hpres' : ∀ r ∈ l, lookupA r.1 (addTarget locate acc q.2).targetItems = some r.2 := by
      intro r hr
      have hne : r.1 ≠ q.2.hash := by
        rw [hqk]
        intro he
        exact hn.1 (he ▸ List.mem_map_of_mem Prod.fst hr)
      rw [hu1 r.1 hne]
      exact hpres r (List.mem_cons_of_mem _ hr)
    obtain ⟨hc2, hr2, hk2, ht2, hl2, hu2⟩ :=
      ih (addTarget locate acc q.2) hn.2 hpres'
        (fun r hr => hkey r (List.mem_cons_of_mem _ hr)) hc1
    simp only [List.foldl_cons]
    refine ⟨hc2, by rw [hr2, hr1], by rw [hk2, hk1], by rw [ht2, ht1], ?_, ?_⟩
    · intro r hr
      rcases List.mem_cons.mp hr with hr | hr
      · subst hr
        rw [hu2 r.1 hn.1, ← hqk]
        exact hl1
      · rw [hl2 r hr, hr1]
    · intro k hk
      rw [keysA_cons, List.mem_cons] at hk
      push_neg at hk
      rw [hu2 k hk.2]
      exact hu1 k (by rw [hqk]; exact hk.1)

/-! ## The membership loops of handleCollectors -/

theorem colRemoveFold_spec :
    ∀ (l : List Collector) (acc : AllocState),
      (keysA acc.collectors).Nodup →
      (l.foldl colRemoveStep acc).targetItems = acc.targetItems ∧
      (keysA (l.foldl colRemoveStep acc).collectors).Nodup ∧
      (∀ n, lookupA n (l.foldl colRemoveStep acc).collectors
          = if n ∈ l.map (fun c => c.name) then none else lookupA n acc.collectors) ∧
      (∀ x, x ∈ (l.foldl colRemoveStep acc).ring
          ↔ x ∈ acc.ring ∧ x ∉ l.map (fun c => c.name)) := by
  intro l
  induction l with
  | nil =>
    intro acc hn
    refine ⟨rfl, hn, ?_, ?_⟩
    · intro n
      simp
    · intro x
      simp
  | cons c l ih =>
    intro acc hn
    have hn1 : (keysA (colRemoveStep acc c).collectors).Nodup := keysA_nodup_eraseA _ hn
    obtain ⟨ht2, hn2, hlk2, hrg2⟩ := ih (colRemoveStep acc c) hn1
    simp only [List.foldl_cons]
    refine ⟨ht2, hn2, ?_, ?_⟩
    · intro n
      rw [hlk2 n]
      by_cases hml : n ∈ l.map (fun c => c.name)
      · simp [hml]
      · by_cases hmc : n = c.name
        · subst hmc
          simp [hml, colRemoveStep, lookupA_eraseA_self _ hn]
        · simp [hml, hmc, colRemoveStep, lookupA_eraseA_ne _ hmc]
    · intro x
      rw [hrg2 x]
      simp only [colRemoveStep, Finset.mem_erase, List.map_cons, List.mem_cons]
      constructor
      · rintro ⟨⟨hx1, hx2⟩, hx3⟩
        exact ⟨hx2, by push_neg; exact ⟨hx1, hx3⟩⟩
      · rintro ⟨hx1, hx2⟩
        push_neg at hx2
        exact ⟨⟨hx2.1, hx1⟩, hx2.2⟩

theorem colAddFold_spec :
    ∀ (l : List Collector) (acc : AllocState),
      (keysA acc.collectors).Nodup →
      (l.foldl colAddStep acc).targetItems = acc.targetItems ∧
      (keysA (l.foldl colAddStep acc).collectors).Nodup ∧
      (∀ n, lookupA n (l.foldl colAddStep acc).collectors
          = if n ∈ l.map (fun c => c.name) then some (NewCollector n)
            else lookupA n acc.collectors) ∧
      (∀ x, x ∈ (l.foldl colAddStep acc).ring
          ↔ x ∈ acc.ring ∨ x ∈ l.map (fun c => c.name)) := by
  intro l
  induction l with
  | nil =>
    intro acc hn
    refine ⟨rfl, hn, ?_, ?_⟩
    · intro n
      simp
    · intro x
      simp
  | cons c l ih =>
    intro acc hn
    have hn1 : (keysA (colAddStep acc c).collectors).Nodup := keysA_nodup_insertA _ hn
    obtain ⟨ht2, hn2, hlk2, hrg2⟩ := ih (colAddStep acc c) hn1
    simp only [List.foldl_cons]
    refine ⟨ht2, hn2, ?_, ?_⟩
    · intro n
      rw [hlk2 n]
      by_cases hml : n ∈ l.map (fun c => c.name)
      · simp [hml]
      · by_cases hmc : n = c.name
        · subst hmc
          simp [hml, colAddStep, lookupA_insertA_self]
        · simp [hml, hmc, colAddStep, lookupA_insertA_ne _ _ hmc]
    · intro x
      rw [hrg2 x]
      simp only [colAddStep, Finset.mem_insert, List.map_cons, List.mem_cons]
      constructor
      · rintro (hx | hx)
        · rcases hx with hx | hx
          · exact Or.inr (Or.inl hx)
          · exact Or.inl hx
        · exact Or.inr (Or.inr hx)
      · rintro (hx | hx | hx)
        · exact Or.inl (Or.inr hx)
        · exact Or.inl (Or.inl hx)
        · exact Or.inr hx

/-! ## Diff-engine facts and guard reductions -/

theorem mem_diffAdditions {β : Type} {old new : List (String × β)} {p : String × β} :
    p ∈ diffAdditions old new ↔ p ∈ new ∧ p.1 ∉ keysA old := by
  unfold diffAdditions
  rw [List.mem_filter, Option.isNone_iff_eq_none, lookupA_isNone_iff_not_mem_keysA]

theorem mem_diffRemovals {β : Type} {old new : List (String × β)} {p : String × β} :
    p ∈ diffRemovals old new ↔ p ∈ old ∧ p.1 ∉ keysA new := by
  unfold diffRemovals
  rw [List.mem_filter, Option.isNone_iff_eq_none, lookupA_isNone_iff_not_mem_keysA]

theorem mem_keysA_diffAdditions {β : Type} {old new : List (String × β)} {k : String} :
    k ∈ keysA (diffAdditions old new) ↔ k ∈ keysA new ∧ k ∉ keysA old := by
  constructor
  · intro h
    obtain ⟨p, hp, rfl⟩ := List.mem_map.mp h
    have hf := mem_diffAdditions.mp hp
    exact ⟨List.mem_map_of_mem Prod.fst hf.1, hf.2⟩
  · rintro ⟨h1, h2⟩
    obtain ⟨p, hp, rfl⟩ := List.mem_map.mp h1
    exact List.mem_map_of_mem Prod.fst (mem_diffAdditions.mpr ⟨hp, h2⟩)

theorem mem_keysA_diffRemovals {β : Type} {old new : List (String × β)} {k : String} :
    k ∈ keysA (diffRemovals old new) ↔ k ∈ keysA old ∧ k ∉ keysA new := by
  constructor
  · intro h
    obtain ⟨p, hp, rfl⟩ := List.mem_map.mp h
    have hf := mem_diffRemovals.mp hp
    exact ⟨List.mem_map_of_mem Prod.fst hf.1, hf.2⟩
  · rintro ⟨h1, h2⟩
    obtain ⟨p, hp, rfl⟩ := List.mem_map.mp h1
    exact List.mem_map_of_mem Prod.fst (mem_diffRemovals.mpr ⟨hp, h2⟩)

theorem keysA_diffAdditions_nodup {β : Type} {old new : List (String × β)}
    (hn : (keysA new).Nodup) : (keysA (diffAdditions old new)).Nodup :=
  List.Nodup.sublist (List.Sublist.map Prod.fst (List.filter_sublist new)) hn

theorem keysA_diffRemovals_nodup {β : Type} {old new : List (String × β)}
    (hn : (keysA old).Nodup) : (keysA (diffRemovals old new)).Nodup :=
  List.Nodup.sublist (List.Sublist.map Prod.fst (List.filter_sublist old)) hn

theorem diffAdditions_eq_nil_iff {β : Type} {old new : List (String × β)} :
    diffAdditions old new = [] ↔ ∀ p ∈ new, p.1 ∈ keysA old := by
  rw [diffAdditions, List.filter_eq_nil_iff]
  constructor
  · intro h p hp
    have h2 := h p hp
    rw [← lookupA_isSome_iff_mem_keysA]
    cases hl : lookupA p.1 old with
    | none => exact absurd (by simp [hl]) h2
    | some v => simp
  · intro h p hp
    have h2 := h p hp
    rw [← lookupA_isSome_iff_mem_keysA] at h2
    cases hl : lookupA p.1 old with
    | none => rw [hl] at h2; simp at h2
    | some v => simp [hl]

theorem diffRemovals_eq_nil_iff {β : Type} {old new : List (String × β)} :
    diffRemovals old new = [] ↔ ∀ p ∈ old, p.1 ∈ keysA new := by
  rw [diffRemovals, List.filter_eq_nil_iff]
  constructor
  · intro h p hp
    have h2 := h p hp
    rw [← lookupA_isSome_iff_mem_keysA]
    cases hl : lookupA p.1 new with
    | none => exact absurd (by simp [hl]) h2
    | some v => simp
  · intro h p hp
    have h2 := h p hp
    rw [← lookupA_isSome_iff_mem_keysA] at h2
    cases hl : lookupA p.1 new with
    | none => rw [hl] at h2; simp at h2
    | some v => simp [hl]

theorem isEmpty_eq_true_iff {β : Type} (l : List β) : l.isEmpty = true ↔ l = [] := by
  cases l <;> simp

theorem coreInv_metricsUpd {s : AllocState} {M : Metrics} (h : CoreInv s) :
    CoreInv { s with metrics := M } :=
  ⟨h.tnodup, h.cnodup, h.keyHash, h.keyName, h.ringEq, h.noEmptyName, h.counts⟩

theorem fullInv_metricsUpd {locate : Finset String → String → String}
    {s : AllocState} {M : Metrics} (h : FullInv locate s) :
    FullInv locate { s with metrics := M } :=
  ⟨coreInv_metricsUpd h.core, h.ownerLoc, h.noOrphan, h.colsNonempty⟩

theorem setTargets_empty_col {locate : Finset String → String → String}
    {m : List (String × TargetItem)} {s : AllocState} (h : s.collectors = []) :
    setTargets locate m s = { s with metrics := observeLatency s.metrics } := by
  rw [setTargets]
  simp [h]

theorem setTargets_diff_empty {locate : Finset String → String → String}
    {m : List (String × TargetItem)} {s : AllocState}
    (ha : diffAdditions s.targetItems m = [])
    (hr : diffRemovals s.targetItems m = []) :
    setTargets locate m s = { s with metrics := observeLatency s.metrics } := by
  rw [setTargets]
  by_cases h : s.collectors.isEmpty <;> simp [h, ha, hr]

theorem setTargets_main {locate : Finset String → String → String}
    {m : List (String × TargetItem)} {s : AllocState} (h : s.collectors ≠ [])
    (hne : ¬(diffAdditions s.targetItems m = [] ∧ diffRemovals s.targetItems m = [])) :
    setTargets locate m s
      = handleTargets locate (diffRemovals s.targetItems m) (diffAdditions s.targetItems m)
          { s with metrics := observeLatency s.metrics } := by
  rw [setTargets]
  rw [if_neg (by rw [isEmpty_eq_true_iff]; exact h)]
  rw [if_neg (by
    rw [Bool.and_eq_true, isEmpty_eq_true_iff, isEmpty_eq_true_iff]
    exact fun hc => hne ⟨hc.1, hc.2⟩)]

theorem setCollectors_nil {locate : Finset String → String → String} {s : AllocState} :
    setCollectors locate [] s
      = { s with metrics := observeLatency (setAllocatable 0 s.metrics) } := by
  rw [setCollectors]
  simp

theorem setCollectors_diff_empty {locate : Finset String → String → String}
    {m : List (String × Collector)} {s : AllocState}
    (ha : diffAdditions s.collectors m = [])
    (hr : diffRemovals s.collectors m = []) :
    setCollectors locate m s
      = { s with metrics := observeLatency (setAllocatable m.length s.metrics) } := by
  rw [setCollectors]
  by_cases h : m.isEmpty
  · rw [isEmpty_eq_true_iff] at h
    simp [h]
  · simp [h, ha, hr]

theorem setCollectors_main {locate : Finset String → String → String}
    {m : List (String × Collector)} {s : AllocState} (hm : m ≠ [])
    (hne : ¬(diffAdditions s.collectors m = [] ∧ diffRemovals s.collectors m = [])) :
    setCollectors locate m s
      = handleCollectors locate
          ((diffRemovals s.collectors m).map Prod.snd)
          ((diffAdditions s.collectors m).map Prod.snd)
          { s with metrics := observeLatency (setAllocatable m.length s.metrics) } := by
  rw [setCollectors]
  rw [if_neg (by rw [isEmpty_eq_true_iff]; exact hm)]
  rw [if_neg (by
    rw [Bool.and_eq_true, isEmpty_eq_true_iff, isEmpty_eq_true_iff]
    exact fun hc => hne ⟨hc.1, hc.2⟩)]

/-! ## SetTargets: full characterisation -/

theorem setTargets_spec {locate : Finset String → String → String}
    (hloc : LocateMem locate)
    {s : AllocState} {m : List (String × TargetItem)}
    (hwf : WFTargets m) (hf : FullInv locate s) :
    FullInv locate (setTargets locate m s) ∧
    (setTargets locate m s).ring = s.ring ∧
    keysA (setTargets locate m s).collectors = keysA s.collectors ∧
    (s.collectors ≠ [] →
      ∀ k, k ∈ keysA (setTargets locate m s).targetItems ↔ k ∈ keysA m) ∧
    (s.collectors = [] → (setTargets locate m s).targetItems = s.targetItems) := by
  by_cases hcol : s.collectors = []
  · rw [setTargets_empty_col hcol]
    exact ⟨fullInv_metricsUpd hf, rfl, rfl, fun hne => absurd hcol hne, fun _ => rfl⟩
  · by_cases hdiff : diffAdditions s.targetItems m = [] ∧ diffRemovals s.targetItems m = []
    · rw [setTargets_diff_empty hdiff.1 hdiff.2]
      refine ⟨fullInv_metricsUpd hf, rfl, rfl, ?_, fun hc => absurd hc hcol⟩
      intro _ k
      have h1 := diffAdditions_eq_nil_iff.mp hdiff.1
      have h2 := diffRemovals_eq_nil_iff.mp hdiff.2
      show k ∈ keysA s.targetItems ↔ k ∈ keysA m
      constructor
      · intro hk
        obtain ⟨p, hp, rfl⟩ := List.mem_map.mp hk
        exact h2 p hp
      · intro hk
        obtain ⟨p, hp, rfl⟩ := List.mem_map.mp hk
        exact h1 p hp
    · rw [setTargets_main hcol hdiff]
      set s0 : AllocState := { s with metrics := observeLatency s.metrics } with hs0
      set rems := diffRemovals s.targetItems m with hrems
      set adds := diffAdditions s.targetItems m with hadds
      have hred : handleTargets locate rems adds s0
          = adds.foldl (addStep locate)
              (s0.targetItems.foldl (removeStep (keysA rems)) s0) := rfl
      rw [hred]
      have hf0 : FullInv locate s0 := fullInv_metricsUpd hf
      have ht0 : s0.targetItems = s.targetItems := rfl
      have hc0 : s0.collectors = s.collectors := rfl
      have hr0 : s0.ring = s.ring := rfl
      obtain ⟨hcS1, hrS1, hkS1, hchS1⟩ :=
        removeFold_spec (keysA rems) s0.targetItems s0 hf0.core.tnodup
          (fun p hp => lookupA_eq_of_mem_nodup hf0.core.tnodup hp)
          hf0.noOrphan hf0.core
      set S1 := s0.targetItems.foldl (removeStep (keysA rems)) s0 with hS1def
      have hS1keys : ∀ k, k ∈ keysA S1.targetItems
          ↔ (k ∈ keysA s.targetItems ∧ k ∈ keysA m) := by
        intro k
        rw [← lookupA_isSome_iff_mem_keysA, hchS1 k]
        by_cases hcond : k ∈ keysA s0.targetItems ∧ k ∈ keysA rems
        · rw [if_pos hcond]
          rw [hrems] at hcond
          have hmr := (mem_keysA_diffRemovals).mp hcond.2
          simp only [Option.isSome_none]
          constructor
          · intro h
            exact absurd h (by simp)
          · intro hk
            exact absurd hk.2 hmr.2
        · rw [if_neg hcond]
          rw [lookupA_isSome_iff_mem_keysA]
          rw [ht0] at hcond ⊢
          constructor
          · intro hk
            refine ⟨hk, ?_⟩
            by_contra hm2
            exact hcond ⟨hk, (mem_keysA_diffRemovals).mpr ⟨hk, hm2⟩⟩
          · intro hk
            exact hk.1
      have hfreshAdds : ∀ q ∈ adds, q.1 ∉ keysA S1.targetItems := by
        intro q hq hmem
        have hq2 := (mem_diffAdditions).mp hq
        exact hq2.2 ((hS1keys q.1).mp hmem).1
      have hwfAdds : ∀ q ∈ adds, q.1 = q.2.hash ∧ q.2.collectorName = "" := by
        intro q hq
        exact hwf.2 q ((mem_diffAdditions).mp hq).1
      obtain ⟨hcS2, hrS2, hkS2, htS2, hlS2, huS2⟩ :=
        addFold_spec adds S1 (keysA_diffAdditions_nodup hwf.1) hwfAdds hfreshAdds hcS1
      have hringR : (adds.foldl (addStep locate) S1).ring = s.ring := by
        rw [hrS2, hrS1, hr0]
      have hkeysR : keysA (adds.foldl (addStep locate) S1).collectors
          = keysA s.collectors := by
        rw [hkS2, hkS1, hc0]
      have hS1colne : S1.collectors ≠ [] := by
        rw [collectors_ne_nil_iff_keysA, hkS1, hc0]
        exact (collectors_ne_nil_iff_keysA).mp hcol
      have hS1ring : S1.ring = s.ring := by rw [hrS1, hr0]
      refine ⟨⟨hcS2, ?_, ?_, ?_⟩, hringR, hkeysR, ?_, fun hc => absurd hc hcol⟩
      · -- ownerLoc
        intro k t hlook
        by_cases hka : k ∈ keysA adds
        · obtain ⟨q, hq, rfl⟩ := List.mem_map.mp hka
          rw [hlS2 q hq] at hlook
          injection hlook with h2
          rw [← h2, newTargetItem_hash, newTargetItem_collectorName, hrS2]
        · rw [huS2 k hka, hchS1 k] at hlook
          by_cases hcond : k ∈ keysA s0.targetItems ∧ k ∈ keysA rems
          · rw [if_pos hcond] at hlook
            cases hlook
          · rw [if_neg hcond] at hlook
            have := hf0.ownerLoc k t hlook
            rw [this, hrS2, hrS1]
      · -- noOrphan
        intro k t hlook
        rw [hkS2, hkS1]
        by_cases hka : k ∈ keysA adds
        · obtain ⟨q, hq, rfl⟩ := List.mem_map.mp hka
          rw [hlS2 q hq] at hlook
          injection hlook with h2
          rw [← h2, newTargetItem_collectorName, ← hkS1]
          exact locate_mem_keysA hloc hcS1 hS1colne _
        · rw [huS2 k hka, hchS1 k] at hlook
          by_cases hcond : k ∈ keysA s0.targetItems ∧ k ∈ keysA rems
          · rw [if_pos hcond] at hlook
            cases hlook
          · rw [if_neg hcond] at hlook
            exact hf0.noOrphan k t hlook
      · -- colsNonempty
        intro _
        rw [collectors_ne_nil_iff_keysA, hkeysR]
        exact (collectors_ne_nil_iff_keysA).mp hcol
      · -- keys iff
        intro _ k
        rw [htS2, List.mem_append, hS1keys k, hadds, mem_keysA_diffAdditions]
        constructor
        · rintro (⟨_, hk⟩ | ⟨hk, _⟩) <;> exact hk
        · intro hk
          by_cases ho : k ∈ keysA s.targetItems
          · exact Or.inl ⟨ho, hk⟩
          · exact Or.inr ⟨hk, ho⟩

/-! ## SetCollectors: full characterisation -/

theorem keysA_ne_nil_of_ne_nil {β : Type} {m : List (String × β)} (h : m ≠ []) :
    keysA m ≠ [] := by
  cases m
  · exact absurd rfl h
  · simp [keysA]

theorem setCollectors_spec {locate : Finset String → String → String}
    (hloc : LocateMem locate)
    {s : AllocState} {m : List (String × Collector)}
    (hwf : WFCollectors m) (hf : FullInv locate s) :
    FullInv locate (setCollectors locate m s) ∧
    keysA (setCollectors locate m s).targetItems = keysA s.targetItems ∧
    (m ≠ [] → ∀ n, n ∈ keysA (setCollectors locate m s).collectors ↔ n ∈ keysA m) ∧
    (m = [] → (setCollectors locate m s).collectors = s.collectors ∧
      (setCollectors locate m s).targetItems = s.targetItems) := by
  by_cases hm : m = []
  · subst hm
    rw [setCollectors_nil]
    exact ⟨fullInv_metricsUpd hf, rfl, fun hne => absurd rfl hne, fun _ => ⟨rfl, rfl⟩⟩
  · by_cases hdiff : diffAdditions s.collectors m = [] ∧ diffRemovals s.collectors m = []
    · rw [setCollectors_diff_empty hdiff.1 hdiff.2]
      refine ⟨fullInv_metricsUpd hf, rfl, ?_, fun hc => absurd hc hm⟩
      intro _ n
      have h1 := diffAdditions_eq_nil_iff.mp hdiff.1
      have h2 := diffRemovals_eq_nil_iff.mp hdiff.2
      show n ∈ keysA s.collectors ↔ n ∈ keysA m
      constructor
      · intro hk
        obtain ⟨p, hp, rfl⟩ := List.mem_map.mp hk
        exact h2 p hp
      · intro hk
        obtain ⟨p, hp, rfl⟩ := List.mem_map.mp hk
        exact h1 p hp
    · rw [setCollectors_main hm hdiff]
      set s0 : AllocState :=
        { s with metrics := observeLatency (setAllocatable m.length s.metrics) } with hs0
      set rems := (diffRemovals s.collectors m).map Prod.snd with hremsdef
      set adds := (diffAdditions s.collectors m).map Prod.snd with haddsdef
      have hf0 : FullInv locate s0 := fullInv_metricsUpd hf
      have ht0 : s0.targetItems = s.targetItems := rfl
      have hc0 : s0.collectors = s.collectors := rfl
      have hr0 : s0.ring = s.ring := rfl
      -- the names of the diffed collectors are their map keys
      have hnameOld : ∀ p ∈ diffRemovals s.collectors m, p.2.name = p.1 := by
        intro p hp
        have hmem := (mem_diffRemovals.mp hp).1
        exact hf.core.keyName p.1 p.2 (lookupA_eq_of_mem_nodup hf.core.cnodup hmem)
      have hnameNew : ∀ p ∈ diffAdditions s.collectors m, p.2.name = p.1 := by
        intro p hp
        exact ((hwf.2 p (mem_diffAdditions.mp hp).1).1).symm
      have hremN : ∀ n, n ∈ rems.map (fun c => c.name)
          ↔ n ∈ keysA s.collectors ∧ n ∉ keysA m := by
        intro n
        rw [← @mem_keysA_diffRemovals Collector s.collectors m n]
        rw [hremsdef]
        constructor
        · intro h
          obtain ⟨c, hc, rfl⟩ := List.mem_map.mp h
          obtain ⟨p, hp, rfl⟩ := List.mem_map.mp hc
          rw [hnameOld p hp]
          exact List.mem_map_of_mem Prod.fst hp
        · intro h
          obtain ⟨p, hp, rfl⟩ := List.mem_map.mp h
          rw [← hnameOld p hp]
          exact List.mem_map_of_mem _ (List.mem_map_of_mem Prod.snd hp)
      have haddN : ∀ n, n ∈ adds.map (fun c => c.name)
          ↔ n ∈ keysA m ∧ n ∉ keysA s.collectors := by
        intro n
        rw [← @mem_keysA_diffAdditions Collector s.collectors m n]
        rw [haddsdef]
        constructor
        · intro h
          obtain ⟨c, hc, rfl⟩ := List.mem_map.mp h
          obtain ⟨p, hp, rfl⟩ := List.mem_map.mp hc
          rw [hnameNew p hp]
          exact List.mem_map_of_mem Prod.fst hp
        · intro h
          obtain ⟨p, hp, rfl⟩ := List.mem_map.mp h
          rw [← hnameNew p hp]
          exact List.mem_map_of_mem _ (List.mem_map_of_mem Prod.snd hp)
      obtain ⟨htA, hnA, hlkA, hrgA⟩ := colRemoveFold_spec rems s0 hf0.core.cnodup
      set S1 := rems.foldl colRemoveStep s0 with hS1def
      obtain ⟨htB, hnB, hlkB, hrgB⟩ := colAddFold_spec adds S1 hnA
      set S2 := adds.foldl colAddStep S1 with hS2def
      have hredC : handleCollectors locate rems adds s0
          = S2.targetItems.foldl (fun acc p => addTarget locate acc p.2) S2 := rfl
      rw [hredC]
      have ht2 : S2.targetItems = s.targetItems := by rw [htB, htA, ht0]
      have hlk2 : ∀ n, lookupA n S2.collectors
          = if n ∈ adds.map (fun c => c.name) then some (NewCollector n)
            else if n ∈ rems.map (fun c => c.name) then none
            else lookupA n s.collectors := by
        intro n
        rw [hlkB n, hlkA n, hc0]
      have hrg2 : ∀ x, x ∈ S2.ring
          ↔ (x ∈ s.ring ∧ x ∉ rems.map (fun c => c.name))
            ∨ x ∈ adds.map (fun c => c.name) := by
        intro x
        rw [hrgB x, hrgA x, hr0]
      have hkeys2 : ∀ n, n ∈ keysA S2.collectors ↔ n ∈ keysA m := by
        intro n
        rw [← lookupA_isSome_iff_mem_keysA, hlk2 n]
        by_cases ha : n ∈ adds.map (fun c => c.name)
        · rw [if_pos ha]
          simp only [Option.isSome_some, true_iff]
          exact ((haddN n).mp ha).1
        · rw [if_neg ha]
          by_cases hr : n ∈ rems.map (fun c => c.name)
          · rw [if_pos hr]
            have hr2 := (hremN n).mp hr
            simp only [Option.isSome_none]
            constructor
            · intro h
              exact absurd h (by simp)
            · intro h
              exact absurd h hr2.2
          · rw [if_neg hr]
            rw [lookupA_isSome_iff_mem_keysA]
            constructor
            · intro h
              by_contra hm2
              exact hr ((hremN n).mpr ⟨h, hm2⟩)
            · intro h
              by_contra ho
              exact ha ((haddN n).mpr ⟨h, ho⟩)
      have hcS2 : CoreInv S2 := by
        refine ⟨?_, hnB, ?_, ?_, ?_, ?_, ?_⟩
        · rw [ht2]
          exact hf.core.tnodup
        · intro k t hlook
          rw [ht2] at hlook
          exact hf.core.keyHash k t hlook
        · intro n c hlook
          rw [hlk2 n] at hlook
          by_cases ha : n ∈ adds.map (fun c => c.name)
          · rw [if_pos ha] at hlook
            injection hlook with h2
            rw [← h2]
            rfl
          · rw [if_neg ha] at hlook
            by_cases hr : n ∈ rems.map (fun c => c.name)
            · rw [if_pos hr] at hlook
              cases hlook
            · rw [if_neg hr] at hlook
              exact hf.core.keyName n c hlook
        · apply Finset.ext
          intro x
          rw [List.mem_toFinset]
          rw [hrg2 x, hkeys2 x, hremN x, haddN x]
          have hring := hf.core.ringEq
          constructor
          · rintro (⟨hx1, hx2⟩ | hx)
            · rw [hring, List.mem_toFinset] at hx1
              by_contra hm2
              exact hx2 ⟨hx1, hm2⟩
            · exact hx.1
          · intro hx
            by_cases ho : x ∈ keysA s.collectors
            · refine Or.inl ⟨?_, ?_⟩
              · rw [hring, List.mem_toFinset]
                exact ho
              · intro hc
                exact hc.2 hx
            · exact Or.inr ⟨hx, ho⟩
        · intro hmem
          obtain ⟨p, hp, hp1⟩ := List.mem_map.mp ((hkeys2 "").mp hmem)
          have hname := (hwf.2 p hp).1
          apply (hwf.2 p hp).2
          rw [← hname]
          exact hp1
        · intro n c hlook
          rw [hlk2 n] at hlook
          by_cases ha : n ∈ adds.map (fun c => c.name)
          · rw [if_pos ha] at hlook
            injection hlook with h2
            rw [← h2]
            show (0 : Int) = _
            rw [ht2]
            have hnotold := ((haddN n).mp ha).2
            rw [countOwner_eq_zero]
            · rfl
            · intro p hp hpn
              have hlp := lookupA_eq_of_mem_nodup hf.core.tnodup hp
              have := hf.noOrphan p.1 p.2 hlp
              rw [hpn] at this
              exact hnotold this
          · rw [if_neg ha] at hlook
            by_cases hr : n ∈ rems.map (fun c => c.name)
            · rw [if_pos hr] at hlook
              cases hlook
            · rw [if_neg hr] at hlook
              rw [ht2]
              exact hf.core.counts n c hlook
      -- the collector set is now exactly the keys of m, hence non-empty
      have hS2colne : S2.collectors ≠ [] := by
        rw [collectors_ne_nil_iff_keysA]
        obtain ⟨p, hp⟩ := List.exists_mem_of_ne_nil _ hm
        intro hnil
        have : p.1 ∈ keysA S2.collectors := (hkeys2 p.1).mpr (List.mem_map_of_mem Prod.fst hp)
        rw [hnil] at this
        simp at this
      obtain ⟨hcC, hrC, hkC, htC, hlC, huC⟩ :=
        reassignFold_spec S2.targetItems S2 hcS2.tnodup
          (fun q hq => lookupA_eq_of_mem_nodup hcS2.tnodup hq)
          (fun q hq => hcS2.keyHash q.1 q.2 (lookupA_eq_of_mem_nodup hcS2.tnodup hq))
          hcS2
      set R := S2.targetItems.foldl (fun acc p => addTarget locate acc p.2) S2 with hRdef
      have hRkeysT : keysA R.targetItems = keysA s.targetItems := by
        rw [htC, ht2]
      have hRkeysC : ∀ n, n ∈ keysA R.collectors ↔ n ∈ keysA m := by
        intro n
        rw [hkC]
        exact hkeys2 n
      refine ⟨⟨hcC, ?_, ?_, ?_⟩, hRkeysT, fun _ => hRkeysC, fun hc => absurd hc hm⟩
      · -- ownerLoc
        intro k t hlook
        have hmem : k ∈ keysA R.targetItems :=
          (lookupA_isSome_iff_mem_keysA _ _).mp (by simp [hlook])
        rw [htC] at hmem
        obtain ⟨q, hq, rfl⟩ := List.mem_map.mp hmem
        rw [hlC q hq] at hlook
        injection hlook with h2
        rw [← h2, newTargetItem_collectorName, newTargetItem_hash, hrC]
      · -- noOrphan
        intro k t hlook
        have hmem : k ∈ keysA R.targetItems :=
          (lookupA_isSome_iff_mem_keysA _ _).mp (by simp [hlook])
        rw [htC] at hmem
        obtain ⟨q, hq, rfl⟩ := List.mem_map.mp hmem
        rw [hlC q hq] at hlook
        injection hlook with h2
        rw [← h2, newTargetItem_collectorName, hkC]
        exact locate_mem_keysA hloc hcS2 hS2colne _
      · -- colsNonempty
        intro _
        rw [collectors_ne_nil_iff_keysA, hkC]
        exact (collectors_ne_nil_iff_keysA).mp hS2colne

/-! ## The reachable-state invariant -/

theorem reachable_fullInv {locate : Finset String → String → String}
    (hloc : LocateMem locate) {s : AllocState}
    (hr : Reachable locate s) : FullInv locate s := by
  induction hr with
  | init =>
    refine ⟨⟨?_, ?_, ?_, ?_, ?_, ?_, ?_⟩, ?_, ?_, ?_⟩
    · simp [initState, keysA]
    · simp [initState, keysA]
    · intro k t h
      simp [initState, lookupA] at h
    · intro n c h
      simp [initState, lookupA] at h
    · simp [initState, keysA]
    · simp [initState, keysA]
    · intro n c h
      simp [initState, lookupA] at h
    · intro k t h
      simp [initState, lookupA] at h
    · intro k t h
      simp [initState, lookupA] at h
    · intro h
      exact absurd rfl h
  | targetsStep _ hwf ih => exact (setTargets_spec hloc hwf ih).1
  | collectorsStep _ hwf ih => exact (setCollectors_spec hloc hwf ih).1

/-! ## Conservation: summing the per-collector counts -/

/-- The sum of `NumTargets` over the live collector map. -/
def sumNumTargets (l : List (String × Collector)) : Int :=
  (l.map (fun p => p.2.numTargets)).sum

theorem sum_map_add_int (ks : List String) (f g : String → Int) :
    (ks.map (fun n => f n + g n)).sum = (ks.map f).sum + (ks.map g).sum := by
  induction ks with
  | nil => simp
  | cons a ks ih =>
    simp [ih]
    ring

theorem sum_ite_zero {x : String} :
    ∀ (ks : List String), x ∉ ks →
      (ks.map (fun n => if x = n then (1 : Int) else 0)).sum = 0 := by
  intro ks
  induction ks with
  | nil => simp
  | cons a ks ih =>
    intro h
    rw [List.mem_cons] at h
    push_neg at h
    simp [h.1, ih h.2]

theorem sum_ite_one {x : String} :
    ∀ (ks : List String), ks.Nodup → x ∈ ks →
      (ks.map (fun n => if x = n then (1 : Int) else 0)).sum = 1 := by
  intro ks
  induction ks with
  | nil =>
    intro _ h
    simp at h
  | cons a ks ih =>
    intro hn hx
    rw [List.nodup_cons] at hn
    rcases List.mem_cons.mp hx with hx2 | hx2
    · subst hx2
      simp [sum_ite_zero ks hn.1]
    · have hne : x ≠ a := by
        intro he
        subst he
        exact hn.1 hx2
      simp [hne, ih hn.2 hx2]

theorem sum_countOwner_eq_length :
    ∀ (items : List (String × TargetItem)) (ks : List String),
      ks.Nodup →
      (∀ p ∈ items, p.2.collectorName ∈ ks) →
      (ks.map (fun n => (countOwner n items : Int))).sum = items.length := by
  intro items
  induction items with
  | nil =>
    intro ks _ _
    simp [countOwner_nil]
  | cons p items ih =>
    intro ks hn hall
    have hx := hall p (List.mem_cons_self _ _)
    have hall2 : ∀ q ∈ items, q.2.collectorName ∈ ks :=
      fun q hq => hall q (List.mem_cons_of_mem _ hq)
    have hfun : (fun n => (countOwner n (p :: items) : Int))
        = fun n => (if p.2.collectorName = n then (1 : Int) else 0) + countOwner n items := by
      funext n
      rw [countOwner_cons]
      push_cast
      ring
    have hstep : (ks.map (fun n => (countOwner n (p :: items) : Int)))
        = ks.map (fun n =>
            (if p.2.collectorName = n then (1 : Int) else 0) + countOwner n items) := by
      rw [hfun]
    rw [hstep, sum_map_add_int, sum_ite_one ks hn hx, ih ks hn hall2]
    simp
    ring

theorem conservation_of_fullInv {locate : Finset String → String → String}
    {s : AllocState} (hf : FullInv locate s) :
    sumNumTargets s.collectors = (s.targetItems.length : Int) := by
  have h1 : s.collectors.map (fun p => p.2.numTargets)
      = (keysA s.collectors).map (fun n => (countOwner n s.targetItems : Int)) := by
    rw [keysA, List.map_map]
    apply List.map_congr_left
    intro p hp
    exact hf.core.counts p.1 p.2 (lookupA_eq_of_mem_nodup hf.core.cnodup hp)
  rw [sumNumTargets, h1]
  apply sum_countOwner_eq_length _ _ hf.core.cnodup
  intro p hp
  exact hf.noOrphan p.1 p.2 (lookupA_eq_of_mem_nodup hf.core.tnodup hp)

/-! ## Concrete fixtures for witnesses and counterexamples -/

/-- A discovery-fresh target (ownership not yet assigned). -/
def tgtA : TargetItem :=
  { jobName := "j", link := "", targetURL := "u1", label := [], collectorName := "" }

/-- A second discovery-fresh target. -/
def tgtB : TargetItem :=
  { jobName := "j", link := "", targetURL := "u2", label := [], collectorName := "" }

/-- One collector registered. -/
def wState1 : AllocState :=
  setCollectors locateDefault [("A", NewCollector "A")] initState

/-- One collector and one target. -/
def wState2 : AllocState :=
  setTargets locateDefault [(tgtA.hash, tgtA)] wState1

theorem wState1_reachable : Reachable locateDefault wState1 :=
  Reachable.collectorsStep Reachable.init (by constructor <;> decide)

theorem wState2_reachable : Reachable locateDefault wState2 :=
  Reachable.targetsStep wState1_reachable (by constructor <;> decide)

/-! ## Claims -/

/-- C1: for every state of the consistent-hashing allocator reachable by any
sequence of SetTargets and SetCollectors calls (with well-formed inputs,
over any ring-lookup function returning a live member), the sum of
NumTargets over all collectors in the live collector map equals the number
of entries in the live targetItems map. -/
theorem C1_conservation {locate : Finset String → String → String}
    (hloc : LocateMem locate) {s : AllocState} (hr : Reachable locate s) :
    sumNumTargets s.collectors = (s.targetItems.length : Int) :=
  conservation_of_fullInv (reachable_fullInv hloc hr)

theorem C1_conservation_witness :
    sumNumTargets wState2.collectors = (wState2.targetItems.length : Int) :=
  C1_conservation locateDefault_mem wState2_reachable

/-- C3: when the live collector map is empty, SetTargets returns without
mutating the targetItems map or the collectors map (hence no NumTargets
count), only observing its latency timer, so a subsequent TargetItems()
snapshot is unchanged. -/
theorem C3_empty_collectors_noop (locate : Finset String → String → String)
    (m : List (String × TargetItem)) (s : AllocState) (h : s.collectors = []) :
    (setTargets locate m s).targetItems = s.targetItems ∧
    (setTargets locate m s).collectors = s.collectors ∧
    TargetItemsSnap (setTargets locate m s) = TargetItemsSnap s ∧
    (setTargets locate m s).metrics.targetsPerCollector
      = s.metrics.targetsPerCollector := by
  rw [setTargets_empty_col h]
  exact ⟨rfl, rfl, rfl, rfl⟩

theorem C3_empty_collectors_noop_witness :
    (setTargets locateDefault [(tgtA.hash, tgtA)] initState).targetItems
        = initState.targetItems ∧
    (setTargets locateDefault [(tgtA.hash, tgtA)] initState).collectors
        = initState.collectors ∧
    TargetItemsSnap (setTargets locateDefault [(tgtA.hash, tgtA)] initState)
        = TargetItemsSnap initState ∧
    (setTargets locateDefault [(tgtA.hash, tgtA)] initState).metrics.targetsPerCollector
        = initState.metrics.targetsPerCollector :=
  C3_empty_collectors_noop locateDefault [(tgtA.hash, tgtA)] initState rfl

/-- C2: in every reachable state every live target's CollectorName is a key
of the live collector map; and a SetCollectors call with a non-empty input
map that lacks a collector name `gone` (i) preserves the live target key
set — no target is deleted — (ii) re-assigns every target previously owned
by `gone`: it survives at its own key, now owned by a collector of the new
live set other than `gone`, and (iii) leaves no live target pointing at
`gone`. -/
theorem C2_no_orphan {locate : Finset String → String → String}
    (hloc : LocateMem locate) {s : AllocState} (hr : Reachable locate s) :
    (∀ p ∈ s.targetItems, p.2.collectorName ∈ keysA s.collectors) ∧
    (∀ m, WFCollectors m → m ≠ [] → ∀ gone, gone ∉ keysA m →
      keysA (setCollectors locate m s).targetItems = keysA s.targetItems ∧
      (∀ p ∈ s.targetItems, p.2.collectorName = gone →
        ∃ t, lookupA p.1 (setCollectors locate m s).targetItems = some t ∧
          t.collectorName ≠ gone ∧
          t.collectorName ∈ keysA (setCollectors locate m s).collectors) ∧
      (∀ p ∈ (setCollectors locate m s).targetItems,
        p.2.collectorName ≠ gone ∧
        p.2.collectorName ∈ keysA (setCollectors locate m s).collectors)) := by
  have hf := reachable_fullInv hloc hr
  constructor
  · intro p hp
    exact hf.noOrphan p.1 p.2 (lookupA_eq_of_mem_nodup hf.core.tnodup hp)
  · intro m hwf hm gone hgone
    have hr2 : Reachable locate (setCollectors locate m s) :=
      Reachable.collectorsStep hr hwf
    have hf2 := reachable_fullInv hloc hr2
    have hspec := setCollectors_spec hloc hwf hf
    have hkeysT := hspec.2.1
    have hkeysC := hspec.2.2.1 hm
    have hpost : ∀ p ∈ (setCollectors locate m s).targetItems,
        p.2.collectorName ≠ gone ∧
        p.2.collectorName ∈ keysA (setCollectors locate m s).collectors := by
      intro p hp
      have hmem : p.2.collectorName ∈ keysA (setCollectors locate m s).collectors :=
        hf2.noOrphan p.1 p.2 (lookupA_eq_of_mem_nodup hf2.core.tnodup hp)
      refine ⟨?_, hmem⟩
      intro he
      rw [he] at hmem
      exact hgone ((hkeysC gone).mp hmem)
    refine ⟨hkeysT, ?_, hpost⟩
    intro p hp _
    have hk : p.1 ∈ keysA (setCollectors locate m s).targetItems := by
      rw [hkeysT]
      exact List.mem_map_of_mem Prod.fst hp
    obtain ⟨t, ht⟩ := Option.isSome_iff_exists.mp
      ((lookupA_isSome_iff_mem_keysA _ _).mpr hk)
    obtain ⟨h1, h2⟩ := hpost (p.1, t) (mem_of_lookupA_some ht)
    exact ⟨t, ht, h1, h2⟩

theorem C2_no_orphan_witness :
    (∀ p ∈ wState2.targetItems, p.2.collectorName ∈ keysA wState2.collectors) ∧
    (keysA (setCollectors locateDefault [("B", NewCollector "B")] wState2).targetItems
        = keysA wState2.targetItems ∧
      (∀ p ∈ wState2.targetItems, p.2.collectorName = "A" →
        ∃ t, lookupA p.1
            (setCollectors locateDefault [("B", NewCollector "B")] wState2).targetItems
            = some t ∧
          t.collectorName ≠ "A" ∧
          t.collectorName ∈ keysA
            (setCollectors locateDefault [("B", NewCollector "B")] wState2).collectors) ∧
      (∀ p ∈ (setCollectors locateDefault [("B", NewCollector "B")] wState2).targetItems,
        p.2.collectorName ≠ "A" ∧
        p.2.collectorName ∈ keysA
          (setCollectors locateDefault [("B", NewCollector "B")] wState2).collectors)) :=
  ⟨(C2_no_orphan locateDefault_mem wState2_reachable).1,
   (C2_no_orphan locateDefault_mem wState2_reachable).2 [("B", NewCollector "B")]
     (by constructor <;> decide) (by decide) "A" (by decide)⟩

/-- C5 counterexample: the allocator state `wState1` has one live collector
"A"; calling SetCollectors with the empty map returns early and leaves "A"
in the live collector map, so the live map does not equal the (empty) key
set of the input — the claim fails in the "m is empty" case. -/
theorem C5_counterexample :
    (setCollectors locateDefault [] wState1).collectors
      = [("A", NewCollector "A")] ∧
    ¬ (setCollectors locateDefault [] wState1).collectors = [] := by
  constructor
  · decide
  · decide

/-- C5 amended: for every *non-empty* input map m, after SetCollectors both
the live collector map and the ring contain exactly the keys of m — every
collector absent from m is removed (destroyed) from the live set and from
the ring; for the empty input map the call is a guarded no-op that leaves
both the live collector map and the ring unchanged. -/
theorem C5_amended {locate : Finset String → String → String}
    (hloc : LocateMem locate) {s : AllocState} (hr : Reachable locate s)
    {m : List (String × Collector)} (hwf : WFCollectors m) :
    (m ≠ [] →
      (∀ n, n ∈ keysA (setCollectors locate m s).collectors ↔ n ∈ keysA m) ∧
      (∀ n, n ∈ (setCollectors locate m s).ring ↔ n ∈ keysA m)) ∧
    (m = [] → (setCollectors locate m s).collectors = s.collectors ∧
      (setCollectors locate m s).ring = s.ring) := by
  have hf := reachable_fullInv hloc hr
  have hspec := setCollectors_spec hloc hwf hf
  have hf2 : FullInv locate (setCollectors locate m s) :=
    reachable_fullInv hloc (Reachable.collectorsStep hr hwf)
  constructor
  · intro hm
    refine ⟨hspec.2.2.1 hm, ?_⟩
    intro n
    rw [hf2.core.ringEq, List.mem_toFinset]
    exact hspec.2.2.1 hm n
  · intro hm
    subst hm
    rw [setCollectors_nil]
    exact ⟨rfl, rfl⟩

theorem C5_amended_witness :
    (([("B", NewCollector "B")] : List (String × Collector)) ≠ [] →
      (∀ n, n ∈ keysA
          (setCollectors locateDefault [("B", NewCollector "B")] wState2).collectors
        ↔ n ∈ keysA [("B", NewCollector "B")]) ∧
      (∀ n, n ∈ (setCollectors locateDefault [("B", NewCollector "B")] wState2).ring
        ↔ n ∈ keysA [("B", NewCollector "B")])) ∧
    (([("B", NewCollector "B")] : List (String × Collector)) = [] →
      (setCollectors locateDefault [("B", NewCollector "B")] wState2).collectors
          = wState2.collectors ∧
      (setCollectors locateDefault [("B", NewCollector "B")] wState2).ring
          = wState2.ring) :=
  C5_amended locateDefault_mem wState2_reachable (by constructor <;> decide)

/-- C9: after a SetCollectors call with a non-empty input whose diff against
the live collector set is non-empty, every live target's CollectorName is
the ring's LocateKey result for that target's hash over the updated
membership (whose ring is exactly the key set of the input map). -/
theorem C9_full_reassign {locate : Finset String → String → String}
    (hloc : LocateMem locate) {s : AllocState} (hr : Reachable locate s)
    {m : List (String × Collector)} (hwf : WFCollectors m) (hm : m ≠ [])
    (_hd : ¬(diffAdditions s.collectors m = [] ∧ diffRemovals s.collectors m = [])) :
    (∀ p ∈ (setCollectors locate m s).targetItems,
      p.2.collectorName = locate (setCollectors locate m s).ring p.2.hash) ∧
    (∀ x, x ∈ (setCollectors locate m s).ring ↔ x ∈ keysA m) := by
  have hf := reachable_fullInv hloc hr
  have hr2 : Reachable locate (setCollectors locate m s) :=
    Reachable.collectorsStep hr hwf
  have hf2 := reachable_fullInv hloc hr2
  constructor
  · intro p hp
    exact hf2.ownerLoc p.1 p.2 (lookupA_eq_of_mem_nodup hf2.core.tnodup hp)
  · intro x
    rw [hf2.core.ringEq, List.mem_toFinset]
    exact (setCollectors_spec hloc hwf hf).2.2.1 hm x

theorem C9_full_reassign_witness :
    (∀ p ∈ (setCollectors locateDefault [("B", NewCollector "B")] wState2).targetItems,
      p.2.collectorName
        = locateDefault (setCollectors locateDefault [("B", NewCollector "B")] wState2).ring
            p.2.hash) ∧
    (∀ x, x ∈ (setCollectors locateDefault [("B", NewCollector "B")] wState2).ring
        ↔ x ∈ keysA [("B", NewCollector "B")]) :=
  C9_full_reassign locateDefault_mem wState2_reachable
    (by constructor <;> decide) (by decide) (by decide)

/-- The intermediate state of `handleCollectors` after collector "A" (owner
of the live target) has been removed and "B" inserted, just before the
re-allocation loop runs `addTargetToTargetItems` on the target. -/
def cexState : AllocState :=
  { ring := {"B"}
    collectors := [("B", NewCollector "B")]
    targetItems := [(tgtA.hash, { tgtA with collectorName := "A" })]
    metrics := { targetsPerCollector := [], collectorsAllocatable := 1,
                 timeToAssignCount := 0 } }

/-- The target being re-assigned: its prior owner "A" is no longer live. -/
def cexTarget : TargetItem := { tgtA with collectorName := "A" }

/-- C4 counterexample: re-assigning a target whose prior owning collector
"A" is no longer in the live collector map decrements nothing — "A" has no
entry to decrement and the only live collector "B" goes from 0 to 1 (the
increment of the new ring owner).  The claim that the prior collector's
NumTargets is decremented in this situation is false: the code decrements
only when the prior owner is still live. -/
theorem C4_counterexample :
    cexTarget.collectorName = "A" ∧
    lookupA "A" cexState.collectors = none ∧
    cexState.collectors = [("B", { name := "B", numTargets := 0 })] ∧
    (addTarget locateDefault cexState cexTarget).collectors
      = [("B", { name := "B", numTargets := 1 })] ∧
    lookupA "A" ((addTarget locateDefault cexState cexTarget).collectors) = none := by
  refine ⟨rfl, rfl, rfl, ?_, ?_⟩ <;> decide

/-- C4 amended: in `addTargetToTargetItems` the prior owner's NumTargets is
decremented (before the new ring owner is computed) exactly when the prior
owner is still in the live collector map; when the prior owner is no longer
live, no decrement occurs — the first phase leaves the state untouched and
the only count change is the new ring owner's increment. -/
theorem C4_amended (locate : Finset String → String → String)
    (s : AllocState) (t : TargetItem) :
    (∀ prev, lookupA t.collectorName s.collectors = some prev →
      lookupA t.collectorName (decPrev s t).collectors
        = some { prev with numTargets := prev.numTargets - 1 }) ∧
    (lookupA t.collectorName s.collectors = none → decPrev s t = s) ∧
    (lookupA t.collectorName s.collectors = none →
      ∀ n, lookupA n (addTarget locate s t).collectors
        = (lookupA n s.collectors).map (fun c =>
            if n = locate s.ring t.hash
            then { c with numTargets := c.numTargets + 1 } else c)) := by
  refine ⟨?_, ?_, ?_⟩
  · intro prev hprev
    rw [decPrev_lookup, hprev]
    simp
  · intro hnone
    rw [decPrev, hnone]
  · intro hnone n
    rw [addTarget_collectors_lookup]
    cases h2 : lookupA n s.collectors with
    | none => rfl
    | some c =>
      have hne : n ≠ t.collectorName := by
        intro he
        rw [he, hnone] at h2
        cases h2
      simp only [Option.map_some']
      rw [if_neg hne]
      by_cases ho : n = locate s.ring t.hash
      · rw [if_pos ho, if_pos ho]
        simp
      · rw [if_neg ho, if_neg ho]
        simp

theorem C4_amended_witness :
    lookupA "B" ((addTarget locateDefault cexState cexTarget).collectors)
      = (lookupA "B" cexState.collectors).map (fun c =>
          if "B" = locateDefault cexState.ring cexTarget.hash
          then { c with numTargets := c.numTargets + 1 } else c) :=
  (C4_amended locateDefault cexState cexTarget).2.2 (by decide) "B"

/-- C6 counterexample: calling SetTargets a second time with the same full
target map leaves the target and collector state unchanged, but a metric
update still occurs: the TimeToAssign latency timer is observed on every
call, so "no metric update occurs" is false. -/
theorem C6_counterexample :
    (setTargets locateDefault [(tgtA.hash, tgtA)] wState2).targetItems
      = wState2.targetItems ∧
    (setTargets locateDefault [(tgtA.hash, tgtA)] wState2).collectors
      = wState2.collectors ∧
    (setTargets locateDefault [(tgtA.hash, tgtA)] wState2).metrics.timeToAssignCount
      = wState2.metrics.timeToAssignCount + 1 ∧
    ¬ (setTargets locateDefault [(tgtA.hash, tgtA)] wState2).metrics
        = wState2.metrics := by
  refine ⟨?_, ?_, ?_, ?_⟩ <;> decide

/-- C6 amended: a second SetTargets call with the same full target map
produces an empty diff and mutates no allocator state and no gauge — the
whole state is unchanged except for the unconditional operation-latency
observation. -/
theorem C6_amended {locate : Finset String → String → String}
    (hloc : LocateMem locate) {s : AllocState} (hr : Reachable locate s)
    {m : List (String × TargetItem)} (hwf : WFTargets m) :
    setTargets locate m (setTargets locate m s)
      = { setTargets locate m s with
          metrics := observeLatency (setTargets locate m s).metrics } ∧
    ((setTargets locate m s).collectors ≠ [] →
      diffAdditions (setTargets locate m s).targetItems m = [] ∧
      diffRemovals (setTargets locate m s).targetItems m = []) := by
  have hf := reachable_fullInv hloc hr
  have hspec := setTargets_spec hloc hwf hf
  by_cases hcol : s.collectors = []
  · have hitems := hspec.2.2.2.2 hcol
    have hcols : (setTargets locate m s).collectors = s.collectors := by
      rw [setTargets_empty_col hcol]
    constructor
    · apply setTargets_empty_col
      rw [hcols]
      exact hcol
    · intro hne
      rw [hcols] at hne
      exact absurd hcol hne
  · have hkeys := hspec.2.2.2.1 hcol
    have hadds : diffAdditions (setTargets locate m s).targetItems m = [] := by
      rw [diffAdditions_eq_nil_iff]
      intro p hp
      exact (hkeys p.1).mpr (List.mem_map_of_mem Prod.fst hp)
    have hrems : diffRemovals (setTargets locate m s).targetItems m = [] := by
      rw [diffRemovals_eq_nil_iff]
      intro p hp
      exact (hkeys p.1).mp (List.mem_map_of_mem Prod.fst hp)
    exact ⟨setTargets_diff_empty hadds hrems, fun _ => ⟨hadds, hrems⟩⟩

theorem C6_amended_witness :
    setTargets locateDefault [(tgtA.hash, tgtA)] wState2
      = { wState2 with metrics := observeLatency wState2.metrics } ∧
    (wState2.collectors ≠ [] →
      diffAdditions wState2.targetItems [(tgtA.hash, tgtA)] = [] ∧
      diffRemovals wState2.targetItems [(tgtA.hash, tgtA)] = []) :=
  C6_amended locateDefault_mem wState1_reachable (by constructor <;> decide)

/-! ## C7: pointer semantics of the snapshot accessors -/

/-- Heap model of the Go pointer semantics around `TargetItems()`: the
allocator's `targetItems` map stores references (`*TargetItem`); `heap`
resolves a reference to the pointed-to record. -/
structure HeapModel where
  heap : List (String × TargetItem)
  internalT : List (String × String)
  deriving DecidableEq

/-- `TargetItems()` in the heap model: copy the map entry by entry — a
fresh map holding the same references (a shallow copy, as the source
comments say). -/
def TargetItemsShallow (h : HeapModel) : List (String × String) :=
  h.internalT.foldl (fun acc p => insertA p.1 p.2 acc) []

/-- A caller mutating the record behind a reference it obtained. -/
def heapWrite (r : String) (v : TargetItem) (h : HeapModel) : HeapModel :=
  { h with heap := insertA r v h.heap }

/-- What the allocator itself sees for the target keyed `k`. -/
def viewTarget (h : HeapModel) (k : String) : Option TargetItem :=
  (lookupA k h.internalT).bind (fun r => lookupA r h.heap)

theorem snapFold :
    ∀ (l : List (String × String)) (acc : List (String × String)),
      (keysA l).Nodup →
      (∀ k ∈ keysA l, k ∉ keysA acc) →
      l.foldl (fun a p => insertA p.1 p.2 a) acc = acc ++ l := by
  intro l
  induction l with
  | nil =>
    intro acc _ _
    simp
  | cons p l ih =>
    intro acc hn hfresh
    rw [keysA_cons, List.nodup_cons] at hn
    have hp1 : p.1 ∉ keysA acc :=
      hfresh p.1 (by rw [keysA_cons]; exact List.mem_cons_self _ _)
    have hfresh2 : ∀ k ∈ keysA l, k ∉ keysA (insertA p.1 p.2 acc) := by
      intro k hk
      rw [keysA_insertA_not_mem _ hp1, List.mem_append]
      push_neg
      refine ⟨hfresh k (by rw [keysA_cons]; exact List.mem_cons_of_mem _ hk), ?_⟩
      intro hc
      rw [List.mem_singleton] at hc
      exact hn.1 (hc ▸ hk)
    rw [List.foldl_cons, ih (insertA p.1 p.2 acc) hn.2 hfresh2,
      insertA_of_not_mem p.2 hp1, List.append_assoc]
    rfl

/-- The heap state used for the C7 counterexample: one live target "h"
stored behind reference "r0". -/
def hm0 : HeapModel :=
  { heap := [("r0", tgtA)], internalT := [("h", "r0")] }

/-- C7 counterexample: the snapshot returned by TargetItems() carries the
reference "r0" shared with the allocator's internal map; a caller writing
the record behind that reference (without ever touching the internal map
object) changes what the allocator itself subsequently reads for target
"h".  So mutation of a Target value reachable through the snapshot IS
observable — the copy is shallow, not independent. -/
theorem C7_counterexample :
    ("h", "r0") ∈ TargetItemsShallow hm0 ∧
    (heapWrite "r0" tgtB hm0).internalT = hm0.internalT ∧
    ¬ viewTarget (heapWrite "r0" tgtB hm0) "h" = viewTarget hm0 "h" := by
  refine ⟨?_, rfl, ?_⟩ <;> decide

/-- C7 amended: TargetItems() returns a fresh map with the same entries —
the same keys mapped to the *same shared references* — so map-level
structure is independent, and a heap write through a reference not held by
the internal map is never observable; but (per the counterexample) a write
through one of the shared references is observable. -/
theorem C7_amended (h : HeapModel) (hn : (keysA h.internalT).Nodup) :
    TargetItemsShallow h = h.internalT ∧
    (∀ r v k, r ∉ h.internalT.map Prod.snd →
      viewTarget (heapWrite r v h) k = viewTarget h k) := by
  constructor
  · rw [TargetItemsShallow, snapFold h.internalT [] hn (by intro k _; simp [keysA])]
    rfl
  · intro r v k hr
    rw [viewTarget, viewTarget]
    have hint : (heapWrite r v h).internalT = h.internalT := rfl
    rw [hint]
    cases hl : lookupA k h.internalT with
    | none => rfl
    | some r2 =>
      have hmem : (k, r2) ∈ h.internalT := mem_of_lookupA_some hl
      have hr2 : r2 ≠ r := fun he => hr (he ▸ List.mem_map_of_mem Prod.snd hmem)
      show lookupA r2 (heapWrite r v h).heap = lookupA r2 h.heap
      exact lookupA_insertA_ne _ _ hr2

theorem C7_amended_witness :
    TargetItemsShallow hm0 = hm0.internalT ∧
    viewTarget (heapWrite "r9" tgtB hm0) "h" = viewTarget hm0 "h" :=
  ⟨(C7_amended hm0 (by decide)).1,
    (C7_amended hm0 (by decide)).2 "r9" tgtB "h" (by decide)⟩

/-! ## C8: determinism across map iteration orders

Each call's input association list carries one iteration order of the Go
map; two runs given the same maps see permuted lists.  The theorem shows
the final target-to-collector assignment does not depend on those orders. -/

inductive Ev where
  | tgts (m : List (String × TargetItem))
  | cols (m : List (String × Collector))

def stepEv (locate : Finset String → String → String) (s : AllocState) : Ev → AllocState
  | Ev.tgts m => setTargets locate m s
  | Ev.cols m => setCollectors locate m s

def runEvents (locate : Finset String → String → String) (evs : List Ev) : AllocState :=
  evs.foldl (stepEv locate) initState

def EvWF : Ev → Prop
  | Ev.tgts m => WFTargets m
  | Ev.cols m => WFCollectors m

/-- Two events are the same call observed under different map iteration
orders: the same public call with permuted input lists. -/
def EvPerm : Ev → Ev → Prop
  | Ev.tgts m, Ev.tgts m2 => m.Perm m2
  | Ev.cols m, Ev.cols m2 => m.Perm m2
  | _, _ => False

/-- The observable key sets of two allocator states agree. -/
def KeysAgree (s s2 : AllocState) : Prop :=
  (∀ k, k ∈ keysA s.targetItems ↔ k ∈ keysA s2.targetItems) ∧
  (∀ n, n ∈ keysA s.collectors ↔ n ∈ keysA s2.collectors)

theorem eq_nil_iff_keysA_empty {β : Type} (l : List (String × β)) :
    l = [] ↔ ∀ n, n ∉ keysA l := by
  constructor
  · intro h
    subst h
    intro n
    simp [keysA]
  · intro h
    cases l with
    | nil => rfl
    | cons p l =>
      exact absurd (List.mem_map_of_mem Prod.fst (List.mem_cons_self p l)) (h p.1)

theorem collectors_nil_iff_of_keysAgree {s s2 : AllocState} (hk : KeysAgree s s2) :
    s.collectors = [] ↔ s2.collectors = [] := by
  rw [eq_nil_iff_keysA_empty, eq_nil_iff_keysA_empty]
  constructor
  · intro h n hn
    exact h n ((hk.2 n).mpr hn)
  · intro h n hn
    exact h n ((hk.2 n).mp hn)

theorem ring_eq_of_keysAgree {locate : Finset String → String → String}
    {s s2 : AllocState} (hf : FullInv locate s) (hf2 : FullInv locate s2)
    (hk : KeysAgree s s2) : s.ring = s2.ring := by
  rw [hf.core.ringEq, hf2.core.ringEq]
  apply Finset.ext
  intro x
  rw [List.mem_toFinset, List.mem_toFinset]
  exact hk.2 x

theorem perm_mem_keysA {β : Type} {m m2 : List (String × β)} (h : m.Perm m2)
    (k : String) : k ∈ keysA m ↔ k ∈ keysA m2 :=
  (h.map Prod.fst).mem_iff

theorem stepEv_keysAgree {locate : Finset String → String → String}
    (hloc : LocateMem locate)
    {s s2 : AllocState} (hf : FullInv locate s) (hf2 : FullInv locate s2)
    (hk : KeysAgree s s2) :
    ∀ {e e2 : Ev}, EvPerm e e2 → EvWF e → EvWF e2 →
      KeysAgree (stepEv locate s e) (stepEv locate s2 e2) := by
  intro e e2 hp hw hw2
  cases e with
  | tgts m =>
    cases e2 with
    | cols m2 => exact hp.elim
    | tgts m2 =>
      show KeysAgree (setTargets locate m s) (setTargets locate m2 s2)
      obtain ⟨_, _, hkA, hkeyA, hemptyA⟩ := setTargets_spec hloc hw hf
      obtain ⟨_, _, hkB, hkeyB, hemptyB⟩ := setTargets_spec hloc hw2 hf2
      constructor
      · intro k
        by_cases hcol : s.collectors = []
        · have hcol2 : s2.collectors = [] := (collectors_nil_iff_of_keysAgree hk).mp hcol
          rw [hemptyA hcol, hemptyB hcol2]
          exact hk.1 k
        · have hcol2 : s2.collectors ≠ [] :=
            fun hc => hcol ((collectors_nil_iff_of_keysAgree hk).mpr hc)
          exact (hkeyA hcol k).trans ((perm_mem_keysA hp k).trans (hkeyB hcol2 k).symm)
      · intro n
        rw [hkA, hkB]
        exact hk.2 n
  | cols m =>
    cases e2 with
    | tgts m2 => exact hp.elim
    | cols m2 =>
      show KeysAgree (setCollectors locate m s) (setCollectors locate m2 s2)
      obtain ⟨_, htA, hkeyA, hnilA⟩ := setCollectors_spec hloc hw hf
      obtain ⟨_, htB, hkeyB, hnilB⟩ := setCollectors_spec hloc hw2 hf2
      constructor
      · intro k
        rw [htA, htB]
        exact hk.1 k
      · intro n
        by_cases hm : m = []
        · have hm2 : m2 = [] := by
            have := hp.length_eq
            rw [hm] at this
            exact List.length_eq_zero.mp this.symm
          rw [(hnilA hm).1, (hnilB hm2).1]
          exact hk.2 n
        · have hm2 : m2 ≠ [] := by
            intro hc
            apply hm
            have := hp.length_eq
            rw [hc] at this
            exact List.length_eq_zero.mp this
          exact (hkeyA hm n).trans ((perm_mem_keysA hp n).trans (hkeyB hm2 n).symm)

theorem reachable_stepEv {locate : Finset String → String → String}
    {s : AllocState} (hr : Reachable locate s) :
    ∀ {e : Ev}, EvWF e → Reachable locate (stepEv locate s e) := by
  intro e hw
  cases e with
  | tgts m => exact Reachable.targetsStep hr hw
  | cols m => exact Reachable.collectorsStep hr hw

theorem reachable_foldlEv {locate : Finset String → String → String} :
    ∀ (evs : List Ev) {s : AllocState}, Reachable locate s →
      (∀ e ∈ evs, EvWF e) → Reachable locate (evs.foldl (stepEv locate) s) := by
  intro evs
  induction evs with
  | nil =>
    intro s hr _
    exact hr
  | cons e evs ih =>
    intro s hr hw
    rw [List.foldl_cons]
    exact ih (reachable_stepEv hr (hw e (List.mem_cons_self _ _)))
      (fun x hx => hw x (List.mem_cons_of_mem _ hx))

theorem foldl_keysAgree {locate : Finset String → String → String}
    (hloc : LocateMem locate) :
    ∀ {evs evs2 : List Ev}, List.Forall₂ EvPerm evs evs2 →
      (∀ e ∈ evs, EvWF e) → (∀ e ∈ evs2, EvWF e) →
      ∀ {s s2 : AllocState}, Reachable locate s → Reachable locate s2 →
        KeysAgree s s2 →
        KeysAgree (evs.foldl (stepEv locate) s) (evs2.foldl (stepEv locate) s2) := by
  intro evs evs2 hperm
  induction hperm with
  | nil =>
    intro _ _ s s2 _ _ hk
    exact hk
  | @cons e e2 l l2 hpe _ ih =>
    intro hw hw2 s s2 hr hr2 hk
    rw [List.foldl_cons, List.foldl_cons]
    have hwe := hw e (List.mem_cons_self _ _)
    have hwe2 := hw2 e2 (List.mem_cons_self _ _)
    exact ih (fun x hx => hw x (List.mem_cons_of_mem _ hx))
      (fun x hx => hw2 x (List.mem_cons_of_mem _ hx))
      (reachable_stepEv hr hwe) (reachable_stepEv hr2 hwe2)
      (stepEv_keysAgree hloc (reachable_fullInv hloc hr) (reachable_fullInv hloc hr2)
        hk hpe hwe hwe2)

theorem assign_eq_of_keysAgree {locate : Finset String → String → String}
    {s s2 : AllocState} (hf : FullInv locate s) (hf2 : FullInv locate s2)
    (hk : KeysAgree s s2) (k : String) :
    (lookupA k s.targetItems).map (fun t => t.collectorName)
      = (lookupA k s2.targetItems).map (fun t => t.collectorName) := by
  have hring := ring_eq_of_keysAgree hf hf2 hk
  cases h1 : lookupA k s.targetItems with
  | none =>
    have hnm : k ∉ keysA s.targetItems := (lookupA_isNone_iff_not_mem_keysA _ _).mp h1
    have h2 : lookupA k s2.targetItems = none :=
      (lookupA_isNone_iff_not_mem_keysA _ _).mpr (fun hm => hnm ((hk.1 k).mpr hm))
    rw [h2]
  | some t =>
    have hmem : k ∈ keysA s.targetItems :=
      (lookupA_isSome_iff_mem_keysA _ _).mp (by simp [h1])
    have hmem2 := (hk.1 k).mp hmem
    have hsome2 := (lookupA_isSome_iff_mem_keysA k s2.targetItems).mpr hmem2
    obtain ⟨t2, h2⟩ := Option.isSome_iff_exists.mp hsome2
    rw [h2]
    simp only [Option.map_some']
    have e1 : t.collectorName = locate s.ring k := by
      rw [hf.ownerLoc k t h1, hf.core.keyHash k t h1]
    have e2 : t2.collectorName = locate s2.ring k := by
      rw [hf2.ownerLoc k t2 h2, hf2.core.keyHash k t2 h2]
    rw [e1, e2, hring]

/-- C8: two runs of the consistent-hashing allocator from its initial state,
given the same sequence of SetCollectors/SetTargets calls with the same
input maps (each call's list possibly permuted, i.e. any Go map iteration
order), end with the identical target-to-collector assignment: the same
CollectorName (or absence) for every target hash. -/
theorem C8_determinism {locate : Finset String → String → String}
    (hloc : LocateMem locate) {evs evs2 : List Ev}
    (hwf : ∀ e ∈ evs, EvWF e) (hwf2 : ∀ e ∈ evs2, EvWF e)
    (hperm : List.Forall₂ EvPerm evs evs2) (k : String) :
    (lookupA k (runEvents locate evs).targetItems).map (fun t => t.collectorName)
      = (lookupA k (runEvents locate evs2).targetItems).map (fun t => t.collectorName) := by
  have hk := foldl_keysAgree hloc hperm hwf hwf2 Reachable.init Reachable.init
    ⟨fun _ => Iff.rfl, fun _ => Iff.rfl⟩
  have hr : Reachable locate (runEvents locate evs) :=
    reachable_foldlEv evs Reachable.init hwf
  have hr2 : Reachable locate (runEvents locate evs2) :=
    reachable_foldlEv evs2 Reachable.init hwf2
  exact assign_eq_of_keysAgree (reachable_fullInv hloc hr)
    (reachable_fullInv hloc hr2) hk k

def evsW : List Ev :=
  [Ev.cols [("A", NewCollector "A"), ("B", NewCollector "B")],
   Ev.tgts [(tgtA.hash, tgtA), (tgtB.hash, tgtB)]]

def evsW2 : List Ev :=
  [Ev.cols [("B", NewCollector "B"), ("A", NewCollector "A")],
   Ev.tgts [(tgtB.hash, tgtB), (tgtA.hash, tgtA)]]

theorem C8_determinism_witness :
    (lookupA tgtA.hash (runEvents locateDefault evsW).targetItems).map
        (fun t => t.collectorName)
      = (lookupA tgtA.hash (runEvents locateDefault evsW2).targetItems).map
          (fun t => t.collectorName) := by
  apply C8_determinism locateDefault_mem
  · intro e he
    rcases List.mem_cons.mp he with rfl | he
    · show WFCollectors _
      constructor <;> decide
    · rcases List.mem_cons.mp he with rfl | he
      · show WFTargets _
        constructor <;> decide
      · simp at he
  · intro e he
    rcases List.mem_cons.mp he with rfl | he
    · show WFCollectors _
      constructor <;> decide
    · rcases List.mem_cons.mp he with rfl | he
      · show WFTargets _
        constructor <;> decide
      · simp at he
  · refine List.Forall₂.cons ?_ (List.Forall₂.cons ?_ List.Forall₂.nil)
    · show List.Perm _ _
      decide
    · show List.Perm _ _
      decide

/-! ## C10: every addTargetToTargetItems call sees a live, non-empty ring -/

/-- `FoldSafe f P s l` says that every intermediate state fed to `f` while
folding `l` from `s` satisfies `P`. -/
def FoldSafe {β : Type} (f : AllocState → β → AllocState) (P : AllocState → Prop) :
    AllocState → List β → Prop
  | _, [] => True
  | s, x :: xs => P s ∧ FoldSafe f P (f s x) xs

/-- The precondition of `addTargetToTargetItems`: at least one live
collector, and a non-empty ring for `LocateKey`. -/
def LiveRing (s : AllocState) : Prop :=
  s.collectors ≠ [] ∧ s.ring.Nonempty

/-- Mirror of the call structure of `SetTargets`: `addTargetToTargetItems`
is invoked only inside the additions loop of `handleTargets`, which runs
only when collectors exist and the diff is non-empty; the loop starts from
the state left by the removals loop. -/
def SetTargetsCallsSafe (locate : Finset String → String → String)
    (m : List (String × TargetItem)) (s : AllocState) : Prop :=
  s.collectors ≠ [] →
  ¬(diffAdditions s.targetItems m = [] ∧ diffRemovals s.targetItems m = []) →
  FoldSafe (addStep locate) LiveRing
    ((({ s with metrics := observeLatency s.metrics }).targetItems).foldl
      (removeStep (keysA (diffRemovals s.targetItems m)))
      { s with metrics := observeLatency s.metrics })
    (diffAdditions s.targetItems m)

/-- Mirror of the call structure of `SetCollectors`:
`addTargetToTargetItems` is invoked only in the re-allocation loop of
`handleCollectors`, which starts from the state after the membership
update. -/
def SetCollectorsCallsSafe (locate : Finset String → String → String)
    (m : List (String × Collector)) (s : AllocState) : Prop :=
  m ≠ [] →
  ¬(diffAdditions s.collectors m = [] ∧ diffRemovals s.collectors m = []) →
  FoldSafe (fun acc p => addTarget locate acc p.2) LiveRing
    (((diffAdditions s.collectors m).map Prod.snd).foldl colAddStep
      (((diffRemovals s.collectors m).map Prod.snd).foldl colRemoveStep
        { s with metrics := observeLatency (setAllocatable m.length s.metrics) }))
    ((((diffAdditions s.collectors m).map Prod.snd).foldl colAddStep
      (((diffRemovals s.collectors m).map Prod.snd).foldl colRemoveStep
        { s with metrics := observeLatency (setAllocatable m.length s.metrics) })).targetItems)

theorem foldSafe_of_inv {β : Type} {f : AllocState → β → AllocState}
    {P : AllocState → Prop} (hstep : ∀ s x, P s → P (f s x)) :
    ∀ (l : List β) (s : AllocState), P s → FoldSafe f P s l := by
  intro l
  induction l with
  | nil =>
    intro s _
    trivial
  | cons x xs ih =>
    intro s hp
    exact ⟨hp, ih (f s x) (hstep s x hp)⟩

theorem liveRing_addTarget {locate : Finset String → String → String}
    (s : AllocState) (t : TargetItem) (h : LiveRing s) :
    LiveRing (addTarget locate s t) := by
  constructor
  · rw [collectors_ne_nil_iff_keysA, addTarget_keysA]
    exact (collectors_ne_nil_iff_keysA).mp h.1
  · rw [addTarget_ring]
    exact h.2

theorem liveRing_addStep {locate : Finset String → String → String}
    (s : AllocState) (x : String × TargetItem) (h : LiveRing s) :
    LiveRing (addStep locate s x) := by
  rw [addStep]
  by_cases hc : (lookupA x.1 s.targetItems).isSome
  · rw [if_pos hc]
    exact h
  · rw [if_neg hc]
    exact liveRing_addTarget s x.2 h

theorem reassign_ring_keys (locate : Finset String → String → String) :
    ∀ (l : List (String × TargetItem)) (acc : AllocState),
      (l.foldl (fun a p => addTarget locate a p.2) acc).ring = acc.ring ∧
      keysA (l.foldl (fun a p => addTarget locate a p.2) acc).collectors
        = keysA acc.collectors := by
  intro l
  induction l with
  | nil =>
    intro acc
    exact ⟨rfl, rfl⟩
  | cons p l ih =>
    intro acc
    rw [List.foldl_cons]
    obtain ⟨h1, h2⟩ := ih (addTarget locate acc p.2)
    exact ⟨by rw [h1, addTarget_ring], by rw [h2, addTarget_keysA]⟩

/-- C10: from any reachable state, under every well-formed SetTargets or
SetCollectors input, the internal path `addTargetToTargetItems` is only
ever invoked in a state with at least one live collector and a non-empty
ring (the zero-collector error branch is unreachable through the public
interface, so the ring lookup never operates on an empty ring). -/
theorem C10_calls_safe {locate : Finset String → String → String}
    (hloc : LocateMem locate) {s : AllocState} (hr : Reachable locate s)
    (mt : List (String × TargetItem)) (mc : List (String × Collector))
    (_hwt : WFTargets mt) (hwc : WFCollectors mc) :
    SetTargetsCallsSafe locate mt s ∧ SetCollectorsCallsSafe locate mc s := by
  have hf := reachable_fullInv hloc hr
  constructor
  · intro hcol _
    set s0 : AllocState := { s with metrics := observeLatency s.metrics } with hs0
    have hf0 : FullInv locate s0 := fullInv_metricsUpd hf
    obtain ⟨hcS1, hrS1, hkS1, _⟩ :=
      removeFold_spec (keysA (diffRemovals s.targetItems mt)) s0.targetItems s0
        hf0.core.tnodup
        (fun p hp => lookupA_eq_of_mem_nodup hf0.core.tnodup hp)
        hf0.noOrphan hf0.core
    apply foldSafe_of_inv (fun st x hp => liveRing_addStep st x hp)
    constructor
    · rw [collectors_ne_nil_iff_keysA, hkS1]
      exact (collectors_ne_nil_iff_keysA).mp hcol
    · rw [hrS1]
      exact ring_nonempty_of_collectors hf0.core hcol
  · intro hm hdiff
    have hfR : FullInv locate (setCollectors locate mc s) :=
      reachable_fullInv hloc (Reachable.collectorsStep hr hwc)
    have hkeysR := (setCollectors_spec hloc hwc hf).2.2.1 hm
    have hRcol_ne : (setCollectors locate mc s).collectors ≠ [] := by
      rw [collectors_ne_nil_iff_keysA]
      obtain ⟨p, hp⟩ := List.exists_mem_of_ne_nil _ hm
      intro hnil
      have hmem : p.1 ∈ keysA (setCollectors locate mc s).collectors :=
        (hkeysR p.1).mpr (List.mem_map_of_mem Prod.fst hp)
      rw [hnil] at hmem
      simp at hmem
    set S2 : AllocState :=
      ((diffAdditions s.collectors mc).map Prod.snd).foldl colAddStep
        (((diffRemovals s.collectors mc).map Prod.snd).foldl colRemoveStep
          { s with metrics := observeLatency (setAllocatable mc.length s.metrics) })
      with hS2def
    have hRdef : setCollectors locate mc s
        = S2.targetItems.foldl (fun acc p => addTarget locate acc p.2) S2 := by
      rw [setCollectors_main hm hdiff]
      rfl
    obtain ⟨hfr, hfk⟩ := reassign_ring_keys locate S2.targetItems S2
    apply foldSafe_of_inv (fun st x hp => liveRing_addTarget st x.2 hp)
    constructor
    · rw [collectors_ne_nil_iff_keysA, ← hfk, ← hRdef]
      exact (collectors_ne_nil_iff_keysA).mp hRcol_ne
    · rw [← hfr, ← hRdef]
      exact ring_nonempty_of_collectors hfR.core hRcol_ne

theorem C10_calls_safe_witness :
    SetTargetsCallsSafe locateDefault [(tgtB.hash, tgtB)] wState2 ∧
    SetCollectorsCallsSafe locateDefault [("B", NewCollector "B")] wState2 :=
  C10_calls_safe locateDefault_mem wState2_reachable _ _
    (by constructor <;> decide) (by constructor <;> decide)

end OTelAlloc
